import Mathlib

/-!
Verification development for the fabricator-assemble material registry and
context assembly engine (src/index.js).

The JavaScript source is shallowly embedded: strings are `String`/`List Char`,
JS objects are ordered association lists, front-matter scalars are an
inductive `Value`, file-system reads/writes are explicit inputs/outputs, and
code paths that throw `TypeError`s are modelled with `Except String`.
External collaborators (Handlebars compile/render, markdown-it, gray-matter,
globby) are abstracted as function parameters or pre-parsed inputs, exactly as
the specification scopes them out.  The `path` module functions used by the
source (basename, extname, dirname, normalize, join) are modelled for POSIX
paths.
-/

set_option linter.unusedVariables false

/-- Left and right curly brace characters, defined by code point so that the
    rest of the file never needs a brace character literal. -/
def lcurl : Char := Char.ofNat 123

def rcurl : Char := Char.ofNat 125

/-- The JavaScript regex class `\s`, which is also the character set removed
    by `String.prototype.trim` (ECMAScript WhiteSpace plus LineTerminator):
    space, tab, LF, CR, vertical tab, form feed, NBSP, Ogham space mark, the
    en-quad..hair-space range U+2000-U+200A, line and paragraph separator,
    narrow no-break space, medium mathematical space, ideographic space and
    the byte-order mark. -/
def jsWS (c : Char) : Bool :=
  c == ' ' || c == '\t' || c == '\n' || c == '\r' || c == Char.ofNat 11 || c == Char.ofNat 12 ||
  c == Char.ofNat 160 || c == Char.ofNat 5760 ||
  c == Char.ofNat 8192 || c == Char.ofNat 8193 || c == Char.ofNat 8194 ||
  c == Char.ofNat 8195 || c == Char.ofNat 8196 || c == Char.ofNat 8197 ||
  c == Char.ofNat 8198 || c == Char.ofNat 8199 || c == Char.ofNat 8200 ||
  c == Char.ofNat 8201 || c == Char.ofNat 8202 ||
  c == Char.ofNat 8232 || c == Char.ofNat 8233 || c == Char.ofNat 8239 ||
  c == Char.ofNat 8287 || c == Char.ofNat 12288 || c == Char.ofNat 65279

/-- The character class `[0-9|\.\-]` of `filterName`'s regex: digits, the
    literal pipe (the source author wrote `|` inside the class), dot, dash. -/
def orderChar (c : Char) : Bool :=
  c.isDigit || c == '|' || c == '.' || c == '-'

/-- The character class `[0-9\.]` of `isExcluded`'s regex. -/
def digitDot (c : Char) : Bool :=
  c.isDigit || c == '.'

/-- Drop a leading `__` if present (group 2 of `filterName`'s regex). -/
def stripUU (xs : List Char) : List Char :=
  match xs with
  | a :: b :: r => if a = '_' ∧ b = '_' then r else xs
  | _ => xs

/-- Does the list start with `__`? -/
def startsUU (xs : List Char) : Bool :=
  match xs with
  | a :: b :: _ => a == '_' && b == '_'
  | _ => false

/-- Does `__` occur anywhere in the list? -/
def hasUU : List Char → Bool
  | [] => false
  | c :: t => (c == '_' && startsUU (c :: t)) || hasUU t

/-- Remove trailing JS whitespace. -/
def trimEndL (xs : List Char) : List Char :=
  (xs.reverse.dropWhile jsWS).reverse

/-- JavaScript `String.prototype.trim`: whitespace removed from both ends. -/
def jsTrimL (xs : List Char) : List Char :=
  (trimEndL xs).dropWhile jsWS

/-- The per-character substitution of `replace(/\s/g, '-')`. -/
def wsDash (c : Char) : Char :=
  if jsWS c then '-' else c

/-- JavaScript-style split: separators delimit (possibly empty) fields, and
    the empty string splits to one empty field. -/
def splitChars (p : Char → Bool) : List Char → List (List Char)
  | [] => [[]]
  | c :: t =>
    let r := splitChars p t
    if p c then [] :: r
    else
      match r with
      | h :: rest => (c :: h) :: rest
      | [] => [[c]]

def splitStr (p : Char → Bool) (s : String) : List String :=
  (splitChars p s.toList).map String.mk

/-- `Array.prototype.join` / `path` separator joining. -/
def joinSep (sep : String) : List String → String
  | [] => ""
  | [x] => x
  | x :: y :: t => x ++ sep ++ joinSep sep (y :: t)

/-! ## POSIX path model

Models of the `path` module functions the source uses, for POSIX-style paths
(the only kind the source's globbing produces).  The `extname` model follows
Node's documented behaviour for ordinary file names: the extension starts at
the last dot of the basename provided that dot is not its first character;
the special-casing of all-dot names such as `.` and `..` is not modelled
because those are never file basenames here. -/

/-- `path.basename(p)`: the part after the last separator, ignoring trailing
    separators. -/
def jsBasenameL (xs : List Char) : List Char :=
  (((xs.reverse.dropWhile (· = '/')).takeWhile (· ≠ '/')).reverse)

def jsBasename (p : String) : String :=
  String.mk (jsBasenameL p.toList)

/-- Split a basename into stem and extension (`path.extname` yields the second
    component; `path.basename(p, path.extname(p))` yields the first). -/
def extSplit (bs : List Char) : List Char × List Char :=
  match (bs.reverse).dropWhile (· ≠ '.') with
  | [] => (bs, [])
  | _ :: restRev =>
    if restRev = [] then (bs, [])
    else (restRev.reverse, '.' :: ((bs.reverse).takeWhile (· ≠ '.')).reverse)

def jsExtname (p : String) : String :=
  String.mk (extSplit (jsBasenameL p.toList)).2

/-- `path.dirname(p)` for POSIX paths. -/
def jsDirnameL (xs : List Char) : List Char :=
  match (xs.reverse.dropWhile (· = '/')).dropWhile (· ≠ '/') with
  | [] => if xs.head? = some '/' then ['/'] else ['.']
  | rest => if rest.drop 1 = [] then ['/'] else (rest.drop 1).reverse

def jsDirname (p : String) : String :=
  String.mk (jsDirnameL p.toList)

/-- Resolve `.`, `..` and empty components of a path, keeping track of a
    reversed accumulator (the heart of `path.normalize`). -/
def normAcc (acc : List String) : List String → List String
  | [] => acc.reverse
  | c :: rest =>
    if c = "" ∨ c = "." then normAcc acc rest
    else if c = ".." then
      match acc with
      | [] => normAcc [".."] rest
      | a :: tl => if a = ".." then normAcc (".." :: a :: tl) rest else normAcc tl rest
    else normAcc (c :: acc) rest

/-- The resolved components of `path.normalize`. -/
def normComps (p : String) : List String :=
  normAcc [] (splitStr (· = '/') p)

/-- The normalized path before trailing-separator restoration. -/
def normCore (p : String) : String :=
  if p.toList.head? = some '/' then "/" ++ joinSep "/" (normComps p)
  else joinSep "/" (normComps p)

/-- An empty normalization result maps to `/` or `.`. -/
def normCore2 (p : String) : String :=
  if normCore p = "" then (if p.toList.head? = some '/' then "/" else ".") else normCore p

/-- `path.normalize(p)` for POSIX paths: collapse duplicate separators,
    resolve `.`/`..`, keep a trailing separator (Node keeps it), map the empty
    result to `.`. -/
def jsNormalize (p : String) : String :=
  if (p.toList.getLast? = some '/') ∧ normComps p ≠ [] then normCore2 p ++ "/" else normCore2 p

/-- The composite `path.normalize(x).split(/[/\\]/)` the source applies to
    directory paths. -/
def splitSeps (s : String) : List String :=
  splitStr (fun c => c = '/' || c = '\\') s

def normSplit (p : String) : List String :=
  splitSeps (jsNormalize p)

/-- `arr.slice(-2, -1)[0]`: the second-to-last element, or JS `undefined`
    (here `none`) when the array has fewer than two elements. -/
def secondLast (l : List String) : Option String :=
  match l.reverse with
  | _ :: b :: _ => some b
  | _ => none

/-- `arr.pop()` on the (always non-empty) result of a split. -/
def lastComp (l : List String) : String :=
  l.getLast?.getD ""

/-- `path.join(...)` followed by `path.normalize` (the source always wraps
    its joins in `normalize`). -/
def normJoin (parts : List String) : String :=
  jsNormalize (joinSep "/" (parts.filter (· ≠ "")))

/-! ## Name Resolver (src/index.js lines 176-207, 286-290) -/

/-- The single (non-global) replacement of
    `name.replace(/(^[0-9|\.\-]+|)(__|)/, '')`: the leftmost match is the
    maximal leading run of `[0-9|\.\-]` (possibly empty) plus an immediately
    following `__` when present, so exactly that prefix is removed. -/
def stripOrder (xs : List Char) : List Char :=
  stripUU (xs.dropWhile orderChar)

/-- `filterName(name, preserveNumbers)` (line 176): strip the ordering prefix
    unless numbers are preserved, trim, replace each whitespace character with
    a dash. -/
def filterName (name : String) (preserveNumbers : Bool) : String :=
  String.mk ((jsTrimL (if preserveNumbers then name.toList else stripOrder name.toList)).map wsDash)

/-- `getName(filePath, preserveNumbers)` (line 190):
    `filterName(path.basename(filePath, path.extname(filePath)), preserveNumbers)`. -/
def getName (filePath : String) (preserveNumbers : Bool) : String :=
  filterName (String.mk (extSplit (jsBasenameL filePath.toList)).1) preserveNumbers

/-- `isExcluded(filePath)` (line 204): whether
    `/(^[0-9\.]+|)(__)/` matches the basename.  The first disjunct is the
    attempt at position 0 with a maximal (possibly empty) digit/dot run for
    group 1; the second disjunct is the attempt at every position with the
    empty alternative of group 1, i.e. an unanchored search for `__`. -/
def isExcluded (filePath : String) : Bool :=
  let nm := (jsBasenameL filePath.toList)
  startsUU (nm.dropWhile digitDot) || hasUU nm

/-- The regex class `\w` (`[A-Za-z0-9_]`). -/
def isWordChar (c : Char) : Bool :=
  c.isAlpha || c.isDigit || c == '_'

/-- The word-by-word pass of `toTitleCase`'s `replace(/\w\S*/g, ...)`: a match
    starts at a `\w` character and greedily consumes non-whitespace; its first
    character is upper-cased and the rest lower-cased.  The flag records
    whether the scan is inside a match. -/
def tcGo : Bool → List Char → List Char
  | _, [] => []
  | false, c :: t =>
    if isWordChar c then c.toUpper :: tcGo true t else c :: tcGo false t
  | true, c :: t =>
    if jsWS c then c :: tcGo false t else c.toLower :: tcGo true t

/-- `toTitleCase(str)` (line 286): dashes/underscores become spaces, then each
    word is title-cased. -/
def toTitleCase (s : String) : String :=
  String.mk (tcGo false (s.toList.map (fun c => if c = '-' ∨ c = '_' then ' ' else c)))

/-! ## Front-matter values and JavaScript coercions

Front matter is parsed by the external gray-matter/js-yaml collaborators; the
scalar values the engine actually inspects are modelled by `Value` (numbers as
rationals, which is exact for every numeric literal the claims involve). -/

inductive Value where
  | vStr (s : String)
  | vNum (q : ℚ)
  | vBool (b : Bool)
  | vNull
  deriving DecidableEq, Repr

/-- Numeric value of a digit run. -/
def natDigits (ds : List Char) : Nat :=
  ds.foldl (fun a c => a * 10 + (c.toNat - 48)) 0

def hexDigitVal (c : Char) : Option Nat :=
  if c.isDigit then some (c.toNat - 48)
  else if 'a' ≤ c ∧ c ≤ 'f' then some (c.toNat - 87)
  else if 'A' ≤ c ∧ c ≤ 'F' then some (c.toNat - 55)
  else none

def hexNat (ds : List Char) : Nat :=
  ds.foldl (fun a c => a * 16 + ((hexDigitVal c).getD 0)) 0

def octNat (ds : List Char) : Nat :=
  ds.foldl (fun a c => a * 8 + (c.toNat - 48)) 0

def binNat (ds : List Char) : Nat :=
  ds.foldl (fun a c => a * 2 + (c.toNat - 48)) 0

/-- Optional `[eE][+-]?digits` exponent suffix; `none` means the remaining
    characters are not a valid exponent (so the whole literal is NaN). -/
def decExp : List Char → Option Int
  | [] => some 0
  | c :: r =>
    if c = 'e' ∨ c = 'E' then
      match r with
      | '+' :: d => if d ≠ [] ∧ d.all Char.isDigit then some ((natDigits d : Nat) : Int) else none
      | '-' :: d => if d ≠ [] ∧ d.all Char.isDigit then some (-((natDigits d : Nat) : Int)) else none
      | d => if d ≠ [] ∧ d.all Char.isDigit then some ((natDigits d : Nat) : Int) else none
    else none

/-- Unsigned decimal literal `digits [. digits] [exp]` as an exact rational. -/
def decMag (t : List Char) : Option ℚ :=
  let ip := t.takeWhile Char.isDigit
  let r1 := t.dropWhile Char.isDigit
  let fp := match r1 with
    | '.' :: r => r.takeWhile Char.isDigit
    | _ => []
  let r2 := match r1 with
    | '.' :: r => r.dropWhile Char.isDigit
    | _ => r1
  if ip = [] ∧ fp = [] then none
  else
    match decExp r2 with
    | none => none
    | some e =>
      some ((((natDigits (ip ++ fp) : Nat) : ℚ) / ((10 : ℚ) ^ fp.length)) * (10 : ℚ) ^ e)

def decSigned (t : List Char) : Option ℚ :=
  match t with
  | '+' :: r => decMag r
  | '-' :: r => (decMag r).map Neg.neg
  | _ => decMag t

/-- JavaScript `ToNumber` on a string, for the literal shapes the engine can
    meet: trimmed empty string is 0, `0x`/`0X` hex, `0o`/`0O` octal, `0b`/`0B`
    binary, otherwise an optionally signed decimal literal.  `Infinity` is
    mapped to `none` like NaN; this is sound for the only use below, which
    compares the result against 1 (neither NaN nor Infinity equals 1). -/
def jsStrToNum (s : String) : Option ℚ :=
  let t := jsTrimL s.toList
  if t = [] then some 0
  else
    match t with
    | '0' :: c :: r =>
      if c = 'x' ∨ c = 'X' then
        if r ≠ [] ∧ r.all (fun d => (hexDigitVal d).isSome) then some ((hexNat r : Nat) : ℚ)
        else none
      else if c = 'o' ∨ c = 'O' then
        if r ≠ [] ∧ r.all (fun d => decide ('0' ≤ d ∧ d ≤ '7')) then some ((octNat r : Nat) : ℚ)
        else none
      else if c = 'b' ∨ c = 'B' then
        if r ≠ [] ∧ r.all (fun d => d == '0' || d == '1') then some ((binNat r : Nat) : ℚ)
        else none
      else decSigned t
    | _ => decSigned t

/-- JavaScript truthiness of a defined value. -/
def jsTruthy : Value → Bool
  | .vStr s => s ≠ ""
  | .vNum q => q ≠ 0
  | .vBool b => b
  | .vNull => false

/-- Truthiness of a possibly-`undefined` property read. -/
def jsTruthyOpt : Option Value → Bool
  | some v => jsTruthy v
  | none => false

/-- The source's `x == true` (line 383): the Abstract Equality algorithm
    coerces `true` to the number 1, so a boolean compares directly, a number
    compares with 1, a string compares via `ToNumber`, and `null`/`undefined`
    are never loosely equal to a number. -/
def jsLooseEqTrue : Option Value → Bool
  | some (.vBool b) => b
  | some (.vNum q) => q == 1
  | some (.vStr s) => jsStrToNum s == some 1
  | some .vNull => false
  | none => false

/-- JavaScript string coercion of a defined value, used for the bundler's
    `"." + (data.data.extension || "html")`.  Non-integer number formatting is
    approximated (no claim exercises it). -/
def jsToString : Value → String
  | .vStr s => s
  | .vBool b => if b then "true" else "false"
  | .vNull => "null"
  | .vNum q => if q.den = 1 then toString q.num else toString q

/-! ## Field Namespacer (src/index.js lines 405-413)

For each front-matter field `key` the source builds
`new RegExp('(\\{\\{[#\/]?)(\\s?' + key + '+?\\s?)(\\}\\})', 'g')` and
replaces every match of it in the material body with
`p1 + id.replace(/\./g,'-') + '.' + p2.replace(/\s/g,'') + p3`.
Note that the appended `+?` quantifies the *last character* of the field
name, lazily.  The match of this regex at one position is modelled by
`matchTok` below, with `p` the field name minus its last character and `c`
that last character.  The key is spliced into the pattern *unescaped*, so the
model treats its characters as regex literals and is faithful only for field
names made of literal characters (`litChar` below: ASCII alphanumerics, dash,
underscore); a field name containing a metacharacter such as `.` or `(`
compiles to a different pattern or throws, and is outside this model. -/

/-- Consume the closing braces `\}\}`. -/
def strip2Close (xs : List Char) : Option (List Char) :=
  match xs with
  | x :: y :: r => if x = rcurl ∧ y = rcurl then some r else none
  | _ => none

/-- Consume `\s?\}\}`.  The greedy `\s?` prefers to take one whitespace
    character; when it does, the zero-width alternative could only succeed if
    that whitespace character were `}`, which it is not, so no backtracking
    case is needed. -/
def wsClose (xs : List Char) : Option (List Char) :=
  match xs with
  | a :: rest => if jsWS a then strip2Close rest else strip2Close xs
  | [] => none

/-- Consume `c+?\s?\}\}` lazily: after each copy of `c` the continuation is
    tried first, and the run is extended only when the continuation fails.
    Returns the run length and the rest of the input. -/
def lazyRun (c : Char) : List Char → Option (Nat × List Char)
  | [] => none
  | a :: rest =>
    if a = c then
      match wsClose rest with
      | some r => some (1, r)
      | none =>
        match lazyRun c rest with
        | some jr => some (jr.1 + 1, jr.2)
        | none => none
    else none

/-- Consume a literal character sequence. -/
def dropPre : List Char → List Char → Option (List Char)
  | [], xs => some xs
  | _ :: _, [] => none
  | p :: ps, x :: xs => if x = p then dropPre ps xs else none

/-- The name-and-close part `p c+? \s? \}\}`; returns group 2 with its
    whitespace already removed (the replacement applies
    `p2.replace(/\s/g,'')`) together with the rest of the input. -/
def coreBody (p : List Char) (c : Char) (ys : List Char) : Option (List Char × List Char) :=
  match dropPre p ys with
  | some after =>
    match lazyRun c after with
    | some jr => some ((p ++ List.replicate jr.1 c).filter (fun ch => !(jsWS ch)), jr.2)
    | none => none
  | none => none

/-- Group 2 with its leading greedy `\s?`: try consuming one whitespace
    character first, fall back to consuming none. -/
def matchBody (p : List Char) (c : Char) (xs : List Char) : Option (List Char × List Char) :=
  match xs with
  | a :: rest =>
    if jsWS a then
      match coreBody p c rest with
      | some v => some v
      | none => coreBody p c xs
    else coreBody p c xs
  | [] => coreBody p c []

/-- A full match of the field regex at the head of the input: `\{\{`, then the
    greedy optional block sigil `[#\/]?` (with fallback when the body fails
    after it), then the body.  Returns the matched sigil, the
    whitespace-stripped group 2, and the rest of the input. -/
def matchTok (p : List Char) (c : Char) (xs : List Char) :
    Option (List Char × List Char × List Char) :=
  match xs with
  | x :: y :: rest =>
    if x = lcurl ∧ y = lcurl then
      match rest with
      | s :: rest2 =>
        if s = '#' ∨ s = '/' then
          match matchBody p c rest2 with
          | some nr => some ([s], nr.1, nr.2)
          | none =>
            match matchBody p c rest with
            | some nr => some ([], nr.1, nr.2)
            | none => none
        else
          match matchBody p c rest with
          | some nr => some ([], nr.1, nr.2)
          | none => none
      | [] => none
    else none
  | _ => none

/-- The global replacement scan: at each position try the regex; on a match
    emit the rewritten token and continue after it, otherwise copy one
    character.  `fuel` is always invoked with the input length, which bounds
    the number of scan steps since every step consumes at least one
    character. -/
def nsScan (p : List Char) (c : Char) (rep : List Char) : Nat → List Char → List Char
  | _, [] => []
  | 0, xs => xs
  | Nat.succ f, x :: t =>
    match matchTok p c (x :: t) with
    | some m =>
      lcurl :: lcurl :: (m.1 ++ rep ++ '.' :: m.2.1 ++ rcurl :: rcurl :: nsScan p c rep f m.2.2)
    | none => x :: nsScan p c rep f t

/-- `id.replace(/\./g, '-')`. -/
def replaceDots (s : String) : String :=
  String.mk (s.toList.map (fun ch => if ch = '.' then '-' else ch))

/-- One field's rewrite of the material body (the body of the `_.forEach`
    callback, lines 406-412). -/
def namespaceField (id fieldKey content : String) : String :=
  match fieldKey.toList.getLast? with
  | none => content
  | some c =>
    String.mk (nsScan fieldKey.toList.dropLast c (replaceDots id).toList
      content.toList.length content.toList)

/-- A character that can appear in an ordinary token name: not whitespace,
    not a brace, not a block sigil. -/
def plainChar (c : Char) : Bool :=
  !(jsWS c) && !(c == lcurl) && !(c == rcurl) && !(c == '#') && !(c == '/')

/-- A field-name character that the constructed regex treats as a literal:
    an ASCII letter, a digit, a dash or an underscore.  The source splices the
    field name into `new RegExp` without escaping, so a field name containing
    a regex metacharacter compiles to a different pattern (or throws a
    `SyntaxError`); the namespacing model, and every theorem quantifying over
    field names, is therefore scoped to names made of these literal
    characters. -/
def litChar (c : Char) : Bool :=
  c.isAlpha || c.isDigit || c == '-' || c == '_'

/-- Does `nm` consist of the field name `p ++ [c]` with its final character
    `c` repeated one or more times?  (The language of `p c+`.) -/
def lastRepExt (p : List Char) (c : Char) (nm : List Char) : Bool :=
  match dropPre p nm with
  | some m => !m.isEmpty && m.all (· = c)
  | none => false

/-- The whole namespacing step (lines 405-413): skipped for empty front
    matter, otherwise each field's rewrite is applied in turn. -/
def namespaceLocal (id : String) (fields : List (String × Value)) (content : String) : String :=
  if fields.isEmpty then content
  else fields.foldl (fun acc kv => namespaceField id kv.1 acc) content

/-! ## Material body trimming (src/index.js line 373)

`content.replace(/^(\s*(\r?\n|\r))+|(\s*(\r?\n|\r))+$/g, '')`: the leading
match removes the longest all-whitespace prefix that ends with a newline
character; the trailing match removes the longest all-whitespace suffix,
provided the string's last character is a newline (each block of the group
must end with `\r?\n` or `\r`). -/

def isNL (c : Char) : Bool :=
  c = '\n' || c = '\r'

def stripLeadBlank (xs : List Char) : List Char :=
  let w := xs.takeWhile jsWS
  match w.reverse.dropWhile (fun c => ¬ isNL c) with
  | [] => xs
  | keptRev => xs.drop keptRev.length

def stripTrailBlank (xs : List Char) : List Char :=
  match xs.getLast? with
  | some c => if isNL c then (xs.reverse.dropWhile jsWS).reverse else xs
  | none => xs

def trimMaterialContent (s : String) : String :=
  String.mk (stripTrailBlank (stripLeadBlank s.toList))

/-! ## Assembly data model

JS objects are ordered association lists with JS property-assignment
semantics: an existing key keeps its position, a new key is appended. -/

def lookupA {α : Type} (l : List (String × α)) (k : String) : Option α :=
  match l with
  | [] => none
  | kv :: t => if kv.1 = k then some kv.2 else lookupA t k

def setA {α : Type} (l : List (String × α)) (k : String) (v : α) : List (String × α) :=
  match l with
  | [] => [(k, v)]
  | kv :: t => if kv.1 = k then (kv.1, v) :: t else kv :: setA t k v

structure ItemNode where
  name : String
  notes : String
  data : List (String × Value)
  exclude : Bool
  bundle : Bool
  updated : Option Value
  deriving DecidableEq, Repr

structure SubColNode where
  name : String
  items : List (String × ItemNode)
  exclude : Bool
  deriving DecidableEq, Repr

/-- A slot of a collection's `items` map: a material, or (when the structure
    is two-level) a nested sub-collection. -/
inductive MatEntry where
  | item (i : ItemNode)
  | sub (s : SubColNode)
  deriving DecidableEq, Repr

structure CollectionNode where
  name : String
  items : List (String × MatEntry)
  exclude : Bool
  deriving DecidableEq, Repr

structure ViewItem where
  name : String
  data : List (String × Value)
  exclude : Bool
  updated : Option Value
  deriving DecidableEq, Repr

structure ViewCollection where
  name : String
  items : List (String × ViewItem)
  deriving DecidableEq, Repr

structure DocItem where
  name : String
  content : String
  exclude : Bool
  deriving DecidableEq, Repr

/-- The module-level `assembly` object (line 129). -/
structure Assembly where
  layouts : List (String × String)
  data : List (String × Value)
  materials : List (String × CollectionNode)
  materialData : List (String × List (String × Value))
  views : List (String × ViewCollection)
  docs : List (String × DocItem)
  deriving DecidableEq, Repr

def emptyAssembly : Assembly :=
  { layouts := [], data := [], materials := [], materialData := [], views := [], docs := [] }

structure BucketKeys where
  materials : String
  views : String
  docs : String
  deriving DecidableEq, Repr

/-- The recognized options the modelled code paths read (line 22). -/
structure FabOptions where
  layout : String
  keys : BucketKeys
  dest : String
  onErrorSet : Bool
  logErrors : Bool
  encloseInComments : Bool
  wrapAndHardResetMaterials : Bool
  deriving DecidableEq, Repr

def defaultOptions : FabOptions :=
  { layout := "default"
    keys := { materials := "materials", views := "views", docs := "docs" }
    dest := "dist"
    onErrorSet := false
    logErrors := false
    encloseInComments := false
    wrapAndHardResetMaterials := false }

/-! ## Context Builder (src/index.js lines 264-278) -/

/-- A value inside a render context: a front-matter scalar, a nested plain
    object, JS `undefined` stored at a present key, or one of the three
    assembly trees. -/
inductive CtxV where
  | v (x : Value)
  | obj (o : List (String × Value))
  | undef
  | mats (m : List (String × CollectionNode))
  | vws (w : List (String × ViewCollection))
  | dcs (d : List (String × DocItem))
  deriving DecidableEq, Repr

/-- `_.assign(dst, src)` for one source object: copy each own enumerable
    key/value of `src` onto `dst` in order. -/
def assignInto (dst src : List (String × CtxV)) : List (String × CtxV) :=
  src.foldl (fun d kv => setA d kv.1 kv.2) dst

def objCtx (o : List (String × Value)) : List (String × CtxV) :=
  o.map (fun kv => (kv.1, CtxV.v kv.2))

/-- `buildContext(data, hash)` (line 264):
    `_.assign({}, data, assembly.data, assembly.materialData, materials,
    views, docs, hash)` where the three singleton buckets hold the assembly
    trees under the configured key names. -/
def buildContext (opts : FabOptions) (asm : Assembly) (data hash : List (String × CtxV)) :
    List (String × CtxV) :=
  assignInto (assignInto (assignInto (assignInto (assignInto (assignInto
    (assignInto [] data) (objCtx asm.data))
    (asm.materialData.map (fun kv => (kv.1, CtxV.obj kv.2))))
    [(opts.keys.materials, CtxV.mats asm.materials)])
    [(opts.keys.views, CtxV.vws asm.views)])
    [(opts.keys.docs, CtxV.dcs asm.docs)]) hash

/-! ## Material Registry (src/index.js lines 307-446)

Globbing and front-matter parsing are external: the pass receives the sorted
list of content files already parsed (`ParsedFile`), and the directory paths
matched by the dirs glob.  The markdown renderer and the Handlebars
compile/render pipeline are abstract function parameters. -/

structure ParsedFile where
  path : String
  fmData : List (String × Value)
  body : String
  deriving DecidableEq, Repr

/-- Assembly state threaded through `parseMaterials`: the `assembly` object,
    the Handlebars registry of named fragments, and the files written by the
    bundling pass. -/
structure MatState where
  asm : Assembly
  fragments : List (String × String)
  writes : List (String × String)
  deriving DecidableEq, Repr

def initialMatState : MatState :=
  { asm := emptyAssembly, fragments := [], writes := [] }

/-- `path.normalize(path.dirname(file)).split(/[/\\]/).slice(-2, -1)[0]`
    (lines 331, 355, 434). -/
def parentComp (file : String) : Option String :=
  secondLast (normSplit (jsDirname file))

/-- `filterName(...pop())` (lines 332, 354, 433): the containing directory's
    identifier. -/
def collectionOf (file : String) : String :=
  filterName (lastComp (normSplit (jsDirname file))) false

/-- The grandparent directory's identifier (`parent` in the source). -/
def parentIdOf (file : String) : Option String :=
  (parentComp file).map (fun s => filterName s false)

/-- The populate/bundle passes' sub-collection test (lines 356, 435):
    `dirs.indexOf(parent) > -1`.  `none` models the `TypeError` thrown when
    the path has too few components for `slice(-2, -1)[0]`. -/
def materialIsSub (dirs : List String) (file : String) : Option Bool :=
  (parentIdOf file).map (fun p => dirs.contains p)

/-- One directory path's identifier (lines 323-325):
    `filterName(path.normalize(dir).split(/[/\\]/).slice(-2, -1)[0])`. -/
def dirId (d : String) : Option String :=
  (secondLast (normSplit d)).map (fun s => filterName s false)

/-- The `dirs` array of identifiers enumerated from the directory glob. -/
def dirsIds (dirPaths : List String) : Option (List String) :=
  dirPaths.mapM dirId

/-- The fully-qualified id / registry key of a material (lines 357-358, both
    lines compute this same expression). -/
def materialKey (dirs : List String) (f : ParsedFile) : Option String :=
  (parentIdOf f.path).map (fun parent =>
    if dirs.contains parent then filterName (collectionOf f.path) false ++ "." ++ getName f.path false
    else getName f.path false)

/-- Pass 1 (lines 329-346): stub a `CollectionNode` for each file's base
    collection.  Note the test here is `dirs.indexOf(getName(parent)) > -1`
    (line 333), with an extra `getName` the populate pass does not apply. -/
def stubFile (dirs : List String) (st : MatState) (f : ParsedFile) : Except String MatState :=
  match parentIdOf f.path with
  | none => Except.error "TypeError: cannot read properties of undefined (filterName)"
  | some parent =>
    let collection := collectionOf f.path
    let isSub := dirs.contains (getName parent false)
    let base := if isSub then parent else collection
    match lookupA st.asm.materials base with
    | some _ => Except.ok st
    | none =>
      let node : CollectionNode :=
        { name := toTitleCase base
          items := []
          exclude := isExcluded (jsNormalize (jsDirname f.path)) }
      Except.ok { st with asm := { st.asm with materials := setA st.asm.materials base node } }

/-- `(fileMatter.data.notes) ? md.render(fileMatter.data.notes) : ''`. -/
def mkNotes (mdRender : Value → String) (fm : List (String × Value)) : String :=
  match lookupA fm "notes" with
  | some v => if jsTruthy v then mdRender v else ""
  | none => ""

/-- The `ItemNode` object literal of lines 378-385 / 387-394 (the two
    branches differ only in the display name passed in). -/
def materialItemNode (mdRender : Value → String) (f : ParsedFile) (displayName : String) :
    ItemNode :=
  { name := displayName
    notes := mkNotes mdRender f.fmData
    data := f.fmData.filter (fun kv => kv.1 ≠ "notes")
    exclude := isExcluded f.path
    bundle := jsLooseEqTrue (lookupA f.fmData "bundle")
    updated := lookupA f.fmData "updated" }

/-- `id.split('.')[1]` (line 388); in the sub-collection branch `id` always
    contains a dot, so the index is in range. -/
def splitDot1 (id : String) : String :=
  ((splitStr (· = '.') id).drop 1).headD ""

/-- Pass 2 (lines 350-426): populate the metadata tree, store the namespaced
    data entry, rewrite the body and register the fragment.  Reads of `.items`
    on a missing or item-typed node model the `TypeError`s the JS would
    throw. -/
def populateFile (opts : FabOptions) (mdRender : Value → String) (dirs : List String)
    (st : MatState) (f : ParsedFile) : Except String MatState :=
  match parentIdOf f.path with
  | none => Except.error "TypeError: cannot read properties of undefined (filterName)"
  | some parent => do
    let collection := collectionOf f.path
    let isSub := dirs.contains parent
    let id := if isSub then filterName collection false ++ "." ++ getName f.path false
              else getName f.path false
    let key := id
    let asm1 ←
      if isSub then
        match lookupA st.asm.materials parent with
        | none => Except.error ("TypeError: cannot read items of undefined (materials." ++ parent ++ ")")
        | some col =>
          match lookupA col.items collection with
          | some _ => Except.ok st.asm
          | none =>
            let sub : SubColNode :=
              { name := toTitleCase collection
                items := []
                exclude := isExcluded (lastComp (normSplit (jsDirname f.path))) }
            let col' : CollectionNode := { col with items := setA col.items collection (MatEntry.sub sub) }
            Except.ok { st.asm with materials := setA st.asm.materials parent col' }
      else Except.ok st.asm
    let localData := f.fmData.filter (fun kv => kv.1 ≠ "notes")
    let content := trimMaterialContent f.body
    let asm2 ←
      if isSub then
        match lookupA asm1.materials parent with
        | none => Except.error ("TypeError: cannot read items of undefined (materials." ++ parent ++ ")")
        | some col =>
          match lookupA col.items collection with
          | some (MatEntry.sub s) =>
            let s' : SubColNode :=
              { s with items := setA s.items key (materialItemNode mdRender f (toTitleCase (splitDot1 id))) }
            let col' : CollectionNode := { col with items := setA col.items collection (MatEntry.sub s') }
            Except.ok { asm1 with materials := setA asm1.materials parent col' }
          | some (MatEntry.item _) =>
            Except.error "TypeError: cannot set properties of undefined (ItemNode.items)"
          | none => Except.error "TypeError: cannot set properties of undefined"
      else
        match lookupA asm1.materials collection with
        | none => Except.error ("TypeError: cannot read items of undefined (materials." ++ collection ++ ")")
        | some col =>
          let col' : CollectionNode :=
            { col with items := setA col.items key (MatEntry.item (materialItemNode mdRender f (toTitleCase id))) }
          Except.ok { asm1 with materials := setA asm1.materials collection col' }
    let asm3 := { asm2 with materialData := setA asm2.materialData (replaceDots id) localData }
    let content := namespaceLocal id localData content
    let content := if opts.wrapAndHardResetMaterials then
        "<div class=\"hard-reset\" data-toolkit>\n" ++ content ++ "\n</div>\n"
      else content
    let content := if opts.encloseInComments then
        "<!-- START '" ++ id ++ "' -->\n" ++ content ++ "\n<!-- END '" ++ id ++ "' -->\n"
      else content
    Except.ok { st with asm := asm3, fragments := setA st.fragments id content }

/-! ## Bundler (src/index.js lines 430-536) -/

/-- One of the six `try { writeFileSync(dest, readFileSync(source)) } catch {}`
    blocks: the read of a missing source throws, the catch swallows it, and no
    write happens; an existing source is copied. -/
def tryCopy (fsIn : String → Option String) (src dst : String) : List (String × String) :=
  match fsIn src with
  | some content => [(dst, content)]
  | none => []

/-- `path.basename(file, ".html")`: the suffix is removed only when it is a
    proper suffix of the basename. -/
def basenameNoHtml (p : String) : String :=
  let bl := jsBasenameL p.toList
  let sfx := ".html".toList
  if bl.length > sfx.length ∧ bl.drop (bl.length - sfx.length) = sfx then
    String.mk (bl.take (bl.length - sfx.length))
  else String.mk bl

def lowAlnum (c : Char) : Bool :=
  c.isDigit || ('a' ≤ c ∧ c ≤ 'z')

/-- `filePath.replace(/\.[0-9a-z]+$/, rep)`: replace a trailing dot-segment of
    lowercase alphanumerics. -/
def replaceTrailingExt (s rep : String) : String :=
  let r := s.toList.reverse
  let seg := r.takeWhile (· ≠ '.')
  match r.dropWhile (· ≠ '.') with
  | [] => s
  | _ :: preRev =>
    if seg ≠ [] ∧ seg.all lowAlnum then String.mk (preRev.reverse ++ rep.toList) else s

/-- `filterName(path.basename(file, ".html"))` (line 451). -/
def bundleBaseName (f : ParsedFile) : String :=
  filterName (basenameNoHtml f.path) false

/-- `data.data.extension || "html"` (line 460). -/
def bundleExt (item : ItemNode) : String :=
  match lookupA item.data "extension" with
  | some v => if jsTruthy v then jsToString v else "html"
  | none => "html"

/-- The bundled module's output path (lines 457-460): join
    `<dest>/bundles/<baseName>/` with `filterName(path.basename(file))`, swap
    the extension, and pass the whole path through `filterName` again (as the
    source does). -/
def bundleHtmlPath (opts : FabOptions) (f : ParsedFile) (item : ItemNode) : String :=
  let fp := normJoin [opts.dest, "bundles", bundleBaseName f,
    filterName (jsBasename f.path) false]
  filterName (replaceTrailingExt fp ("." ++ bundleExt item)) false

/-- The ItemNode spread into the render context by `buildContext(data)`
    (line 455): its own enumerable fields, with an `undefined`-valued
    `updated` key kept present as JS object literals do. -/
def itemCtx (item : ItemNode) : List (String × CtxV) :=
  [("name", CtxV.v (Value.vStr item.name)),
   ("notes", CtxV.v (Value.vStr item.notes)),
   ("data", CtxV.obj item.data),
   ("exclude", CtxV.v (Value.vBool item.exclude)),
   ("bundle", CtxV.v (Value.vBool item.bundle)),
   ("updated", match item.updated with | some u => CtxV.v u | none => CtxV.undef)]

/-- The `data` lookup of lines 433-445, returning the registry key and the
    node found (if any).  A sub-collection node found where an item is
    expected has no `bundle` field, so the guard at line 447 skips it; that is
    modelled by returning `none`.  Reads through a missing node are the JS
    `TypeError`s. -/
def bundleLookup (dirs : List String) (asm : Assembly) (f : ParsedFile) :
    Except String (String × Option ItemNode) :=
  match parentIdOf f.path with
  | none => Except.error "TypeError: cannot read properties of undefined (filterName)"
  | some parent =>
    let collection := collectionOf f.path
    let isSub := dirs.contains parent
    let key := if isSub then filterName collection false ++ "." ++ getName f.path false
               else getName f.path false
    if isSub then
      match lookupA asm.materials parent with
      | none => Except.error ("TypeError: cannot read items of undefined (materials." ++ parent ++ ")")
      | some col =>
        match lookupA col.items collection with
        | none => Except.error "TypeError: cannot read items of undefined"
        | some (MatEntry.item _) => Except.error "TypeError: cannot read key of undefined (ItemNode.items)"
        | some (MatEntry.sub s) => Except.ok (key, lookupA s.items key)
    else
      match lookupA asm.materials collection with
      | none => Except.error ("TypeError: cannot read items of undefined (materials." ++ collection ++ ")")
      | some col =>
        Except.ok (key,
          match lookupA col.items key with
          | some (MatEntry.item i) => some i
          | some (MatEntry.sub _) => none
          | none => none)

/-- The six best-effort asset copies of lines 478-536. -/
def bundleCopies (opts : FabOptions) (fsIn : String → Option String) (baseName : String) :
    List (String × String) :=
  tryCopy fsIn (normJoin [opts.dest, "assets", "toolkit", "styles", "bundles", baseName ++ ".css"])
               (normJoin [opts.dest, "bundles", baseName, baseName ++ ".css"]) ++
  tryCopy fsIn (normJoin [opts.dest, "assets", "toolkit", "scripts", "bundles", baseName ++ ".js"])
               (normJoin [opts.dest, "bundles", baseName, baseName ++ ".js"]) ++
  tryCopy fsIn (normJoin [opts.dest, "assets", "toolkit", "styles", "toolkit.css"])
               (normJoin [opts.dest, "bundles", baseName, "toolkit.css"]) ++
  tryCopy fsIn (normJoin [opts.dest, "assets", "toolkit", "scripts", "toolkit.js"])
               (normJoin [opts.dest, "bundles", baseName, "toolkit.js"]) ++
  tryCopy fsIn (normJoin [opts.dest, "assets", "toolkit", "styles", "vendor", "vendor.css"])
               (normJoin [opts.dest, "bundles", baseName, "vendor.css"]) ++
  tryCopy fsIn (normJoin [opts.dest, "assets", "toolkit", "scripts", "vendor", "vendor.js"])
               (normJoin [opts.dest, "bundles", baseName, "vendor.js"])

/-- The guarded legacy WebSphere export of lines 538-742, an external
    collaborator per the specification, modelled by `wsExport`; its body never
    throws past its own try/catch handlers and console logging. -/
def bundleWs (wsExport : String → String → List (String × String)) (asm : Assembly)
    (item : ItemNode) (baseName rendered : String) : List (String × String) :=
  if jsTruthyOpt (lookupA item.data "websphere") ∧ (lookupA asm.data "globals").isSome
  then wsExport baseName rendered else []

/-- The `\x7b\x7b> key \x7d\x7d` include source of line 454. -/
def bundleSource (key : String) : String :=
  "\x7b\x7b> " ++ key ++ " \x7d\x7d"

/-- Pass 3 (lines 430-536): for each file whose item carries `bundle: true`,
    render the include through `buildContext` and write it, then
    best-effort-copy the six optional compiled assets and run the guarded
    legacy export. -/
def bundleFile (opts : FabOptions) (render : String → List (String × CtxV) → String)
    (wsExport : String → String → List (String × String))
    (fsIn : String → Option String) (dirs : List String)
    (st : MatState) (f : ParsedFile) : Except String MatState := do
  let kd ← bundleLookup dirs st.asm f
  match kd.2 with
  | none => pure st
  | some item =>
    if item.bundle then
      let rendered := render (bundleSource kd.1) (buildContext opts st.asm (itemCtx item) [])
      pure { st with writes := st.writes ++
        (bundleHtmlPath opts f item, rendered)
          :: (bundleCopies opts fsIn (bundleBaseName f)
              ++ bundleWs wsExport st.asm item (bundleBaseName f) rendered) }
    else pure st

/-- `parseMaterials()` (line 307): reset the materials tree, compute the
    directory identifiers, then run the stub, populate, and bundling passes in
    file order (the source sorts the file list; `files` is received already
    sorted). -/
def parseMaterials (opts : FabOptions) (mdRender : Value → String)
    (render : String → List (String × CtxV) → String)
    (wsExport : String → String → List (String × String))
    (fsIn : String → Option String)
    (files : List ParsedFile) (dirPaths : List String) (st0 : MatState) :
    Except String MatState := do
  match dirsIds dirPaths with
  | none => Except.error "TypeError: cannot read properties of undefined (filterName, dirs glob)"
  | some dirs =>
    let st1 := { st0 with asm := { st0.asm with materials := [] } }
    let st2 ← files.foldlM (stubFile dirs) st1
    let st3 ← files.foldlM (populateFile opts mdRender dirs) st2
    files.foldlM (bundleFile opts render wsExport fsIn dirs) st3

/-! ## Error handler (src/index.js lines 226-256) -/

/-- A thrown JS value reaching `handleError`: either a native `Error`
    instance, whose `message` and `stack` are own but *non-enumerable*
    properties, or a thrown plain object with enumerable fields. -/
inductive JsErr where
  | native (message stack : String)
  | plain (fields : List (String × Value))
  deriving DecidableEq, Repr

/-- The own enumerable properties `_.assign` copies from the thrown value. -/
def jsErrEnumFields : JsErr → List (String × Value)
  | .native _ _ => []
  | .plain fs => fs

/-- The `e.message` read used in the log strings (undefined prints as
    "undefined" in the template concatenation). -/
def jsErrMessage : JsErr → String
  | .native m _ => m
  | .plain fs =>
    match lookupA fs "message" with
    | some v => jsToString v
    | none => "undefined"

/-- What `handleError` did: the object handed to `options.onError`, the
    console text for the `logErrors` branch, the console text for the
    process-exit branch, and whether the process exited. -/
structure HandlerOutcome where
  callbackArg : Option (List (String × Value))
  logged : Option String
  exitLogged : Option String
  exited : Bool
  deriving DecidableEq, Repr

def errLogText (e : JsErr) : String :=
  "Error (fabricator-assemble): " ++ jsErrMessage e ++ "\n"

/-- `handleError(e)` (line 226): build the error object by
    `_.assign({}, defaults, e)` (own enumerable properties only), invoke the
    callback and/or log, and exit only when neither fired. -/
def handleError (opts : FabOptions) (e : JsErr) : HandlerOutcome :=
  let defaults : List (String × Value) :=
    [("name", Value.vStr "Error"), ("reason", Value.vStr ""), ("message", Value.vStr "An error occurred")]
  let error := (jsErrEnumFields e).foldl (fun d kv => setA d kv.1 kv.2) defaults
  let exit1 := true
  let cb := if opts.onErrorSet then some error else none
  let exit2 := if opts.onErrorSet then false else exit1
  let lg := if opts.logErrors then some (errLogText e) else none
  let exit3 := if opts.logErrors then false else exit2
  if exit3 then
    { callbackArg := cb, logged := lg, exitLogged := some (errLogText e), exited := true }
  else
    { callbackArg := cb, logged := lg, exitLogged := none, exited := false }

/-! ## Concrete collaborators for closed evaluations -/

instance {ε α : Type} [DecidableEq ε] [DecidableEq α] : DecidableEq (Except ε α) := fun a b =>
  match a, b with
  | .ok x, .ok y => if h : x = y then .isTrue (by rw [h]) else .isFalse (by simp [h])
  | .error x, .error y => if h : x = y then .isTrue (by rw [h]) else .isFalse (by simp [h])
  | .ok _, .error _ => .isFalse (by simp)
  | .error _, .ok _ => .isFalse (by simp)

/-- A concrete stand-in for the Handlebars compile/render pipeline. -/
def constRender : String → List (String × CtxV) → String := fun _ _ => "rendered"

/-- A concrete stand-in for the legacy-CMS export collaborator. -/
def noWsExport : String → String → List (String × String) := fun _ _ => []

/-- A file system with no readable files (every asset read throws). -/
def emptyFS : String → Option String := fun _ => none

/-- A concrete stand-in for the markdown renderer. -/
def constMd : Value → String := fun _ => "md"

/-- A concrete bundled material for closed instantiations. -/
def wItem : ItemNode :=
  { name := "Primary", notes := "", data := [], exclude := false, bundle := true, updated := none }

def wFile : ParsedFile :=
  { path := "src/materials/buttons/primary.html", fmData := [], body := "" }

def wAsm : Assembly :=
  { emptyAssembly with materials :=
      [("buttons", { name := "Buttons", items := [("primary", MatEntry.item wItem)], exclude := false })] }

def wState : MatState :=
  { asm := wAsm, fragments := [], writes := [] }

/-! ## Claim theorems -/

/-- C1: for a material file with front matter `title: "X"` and body
    `Title: \x7b\x7btitle\x7d\x7d` registered under the fully-qualified id
    `buttons.primary`, the material-parsing pass registers a fragment whose
    body is exactly `Title: \x7b\x7bbuttons-primary.title\x7d\x7d` and stores
    a namespaced-data entry at key `buttons-primary` equal to `title: "X"`. -/
theorem claim_C1_roundtrip :
    (parseMaterials defaultOptions constMd constRender noWsExport emptyFS
      [{ path := "src/materials/components/buttons/primary.html"
         fmData := [("title", Value.vStr "X")]
         body := "Title: \x7b\x7btitle\x7d\x7d" }]
      ["src/materials/components/", "src/materials/components/buttons/"] initialMatState).map
      (fun st => (lookupA st.fragments "buttons.primary", lookupA st.asm.materialData "buttons-primary"))
    = Except.ok (some "Title: \x7b\x7bbuttons-primary.title\x7d\x7d",
                 some [("title", Value.vStr "X")]) := by
  decide

/-- C5: the claim says the hidden test returns false for every basename whose
    `__` is not preceded only by a leading run of digits/dots, but the code's
    regex `(^[0-9\.]+|)(__)` matches `__` anywhere once group 1 takes its
    empty alternative: `isExcluded "foo__bar.html"` is `true`, a failing input
    for the claim (the claim's own examples also evaluate as stated). -/
theorem claim_C5_hidden_test :
    isExcluded "foo__bar.html" = true
    ∧ isExcluded "02__hidden.html" = true
    ∧ isExcluded "02-visible.html" = false := by
  decide

/-- C8: the claim says the error object passed to `onError` carries the
    original message, but for a native `Error` (whose `message` is an own
    *non-enumerable* property) `_.assign({}, defaults, e)` copies nothing, so
    the callback receives the generic `"An error occurred"` even though the
    thrown error's message is `"boom"`.  The logged text, by contrast, does
    use `e.message` directly. -/
theorem claim_C8_error_message :
    (handleError { defaultOptions with onErrorSet := true } (JsErr.native "boom" "stacktrace")).callbackArg
      = some [("name", Value.vStr "Error"), ("reason", Value.vStr ""),
              ("message", Value.vStr "An error occurred")]
    ∧ jsErrMessage (JsErr.native "boom" "stacktrace") = "boom"
    ∧ (handleError { defaultOptions with logErrors := true } (JsErr.native "boom" "stacktrace")).logged
      = some "Error (fabricator-assemble): boom\n" := by
  decide

/-- C10: the claim says the stub pass's collection key always equals the key
    the populate pass reads.  For a directory `v1.0` the stub pass applies
    `getName` to the parent identifier, stripping `.0` as an extension, so it
    stubs only a `buttons` collection, while the populate pass classifies the
    file as a sub-collection of `v1.0` and dereferences
    `assembly.materials["v1.0"].items`, which is undefined: the run aborts
    with a `TypeError`. -/
theorem claim_C10_stub_populate :
    parseMaterials defaultOptions constMd constRender noWsExport emptyFS
      [{ path := "src/materials/v1.0/buttons/x.html", fmData := [], body := "" }]
      ["src/materials/v1.0/", "src/materials/v1.0/buttons/"] initialMatState
    = Except.error "TypeError: cannot read items of undefined (materials.v1.0)" := by
  decide

/-- C2 counterexample: the claim says a token whose name merely extends a
    field name is never rewritten, yet with field `title` the token
    `\x7b\x7btitlee\x7d\x7d` (name `titlee`) is rewritten, because the
    constructed regex quantifies the field name's last character with `+?`. -/
theorem claim_C2_counterexample :
    namespaceLocal "buttons.primary" [("title", Value.vStr "X")] "\x7b\x7btitlee\x7d\x7d"
      = "\x7b\x7bbuttons-primary.titlee\x7d\x7d"
    ∧ "\x7b\x7bbuttons-primary.titlee\x7d\x7d" ≠ "\x7b\x7btitlee\x7d\x7d" := by
  decide

/-- C3 counterexample: the claim says a file one directory below the
    materials root is never classified as sub-collection, but when a
    subdirectory is itself named `materials` the enumerated identifiers
    contain `materials`, and `materials/buttons/primary.html` (whose
    grandparent component is `materials`) is classified as sub-collection. -/
theorem claim_C3_counterexample :
    dirsIds ["src/materials/materials/", "src/materials/buttons/"]
      = some ["materials", "buttons"]
    ∧ materialIsSub ["materials", "buttons"] "src/materials/buttons/primary.html" = some true := by
  decide

/-- C7 counterexample: the claim says any non-boolean `bundle` front-matter
    value yields `bundle = false`, but `bundle: 1` satisfies the source's
    loose comparison `fileMatter.data.bundle == true`, so the stored ItemNode
    has `bundle = true`. -/
theorem claim_C7_counterexample :
    (parseMaterials defaultOptions constMd constRender noWsExport emptyFS
      [{ path := "src/materials/buttons/primary.html"
         fmData := [("bundle", Value.vNum 1)], body := "" }]
      ["src/materials/buttons/"] initialMatState).map
      (fun st => (lookupA st.asm.materials "buttons").bind (fun col =>
        (lookupA col.items "primary").bind (fun e =>
          match e with
          | MatEntry.item i => some i.bundle
          | MatEntry.sub _ => none)))
    = Except.ok (some true) := by
  decide

/-! ## Association-list lemmas for the context builder -/

/-- Lookup against the *last* binding of a key (what repeated JS assignments
    leave in place). -/
def lookupLastA {α : Type} (l : List (String × α)) (k : String) : Option α :=
  lookupA l.reverse k

theorem lookupA_setA {α : Type} (l : List (String × α)) (k k' : String) (v : α) :
    lookupA (setA l k v) k' = if k = k' then some v else lookupA l k' := by
  induction l with
  | nil =>
    by_cases h : k = k' <;> simp [setA, lookupA, h]
  | cons kv t ih =>
    obtain ⟨a, b⟩ := kv
    by_cases h1 : a = k
    · subst h1
      by_cases h2 : a = k'
      · subst h2
        simp [setA, lookupA]
      · simp [setA, lookupA, h2]
    · by_cases h2 : a = k'
      · subst h2
        rw [if_neg (fun h => h1 h.symm)]
        simp [setA, lookupA, h1]
      · simp [setA, lookupA, h1, h2, ih]

theorem lookupA_append {α : Type} (a b : List (String × α)) (k : String) :
    lookupA (a ++ b) k = (lookupA a k <|> lookupA b k) := by
  induction a with
  | nil => simp [lookupA]
  | cons kv t ih =>
    by_cases h : kv.1 = k <;> simp [lookupA, h, ih]

theorem lookupA_assignInto (d s : List (String × CtxV)) (k : String) :
    lookupA (assignInto d s) k = (lookupLastA s k <|> lookupA d k) := by
  induction s generalizing d with
  | nil => simp [assignInto, lookupLastA, lookupA]
  | cons kv s' ih =>
    have hstep : assignInto d (kv :: s') = assignInto (setA d kv.1 kv.2) s' := rfl
    rw [hstep, ih]
    have hrev : lookupLastA (kv :: s') k = (lookupLastA s' k <|> lookupA [kv] k) := by
      simp [lookupLastA, List.reverse_cons, lookupA_append]
    rw [hrev]
    cases hlast : lookupLastA s' k with
    | some v => simp
    | none =>
      by_cases h : kv.1 = k
      · simp [lookupA_setA, lookupA, h]
      · simp [lookupA_setA, lookupA, h]

/-- C4: `buildContext(pageData, extraHash)` merges, in increasing precedence,
    pageData, the data-file map, the namespaced material-data map, the
    materials bucket, the views bucket, the docs bucket, then extraHash: the
    value found at any key is the first defined one in that order from the
    top; in particular `buildContext` of page data `a:1` with call-site hash
    `a:2` and no other binding of `a` yields `a = 2`. -/
theorem claim_C4_context_precedence :
    (∀ (opts : FabOptions) (asm : Assembly) (pd hash : List (String × CtxV)) (k : String),
      lookupA (buildContext opts asm pd hash) k =
        (lookupLastA hash k <|>
          ((if opts.keys.docs = k then some (CtxV.dcs asm.docs) else none) <|>
            ((if opts.keys.views = k then some (CtxV.vws asm.views) else none) <|>
              ((if opts.keys.materials = k then some (CtxV.mats asm.materials) else none) <|>
                (lookupLastA (asm.materialData.map (fun kv => (kv.1, CtxV.obj kv.2))) k <|>
                  (lookupLastA (objCtx asm.data) k <|> lookupLastA pd k)))))))
    ∧ lookupA (buildContext defaultOptions emptyAssembly
        [("a", CtxV.v (Value.vNum 1))] [("a", CtxV.v (Value.vNum 2))]) "a"
      = some (CtxV.v (Value.vNum 2)) := by
  constructor
  · intro opts asm pd hash k
    unfold buildContext
    rw [lookupA_assignInto, lookupA_assignInto, lookupA_assignInto, lookupA_assignInto,
      lookupA_assignInto, lookupA_assignInto, lookupA_assignInto]
    simp [lookupLastA, lookupA]
  · decide

/-- C7 (amended): the stored ItemNode's `bundle` flag is the loose JavaScript
    comparison `fileMatter.data.bundle == true`, which holds exactly for the
    boolean `true`, the number 1, and strings whose numeric value is 1; it is
    false for an absent value, `false`, other numbers, other strings and
    `null`. -/
theorem claim_C7_amended :
    (∀ (mdRender : Value → String) (f : ParsedFile) (nm : String),
      (materialItemNode mdRender f nm).bundle = jsLooseEqTrue (lookupA f.fmData "bundle"))
    ∧ ∀ (v : Option Value), jsLooseEqTrue v = true ↔
        (v = some (Value.vBool true) ∨ v = some (Value.vNum 1) ∨
         ∃ s, v = some (Value.vStr s) ∧ jsStrToNum s = some 1) := by
  constructor
  · intro mdRender f nm
    rfl
  · intro v
    match v with
    | none => simp [jsLooseEqTrue]
    | some (Value.vBool b) => simp [jsLooseEqTrue]
    | some (Value.vNum q) => simp [jsLooseEqTrue]
    | some (Value.vStr s) => simp [jsLooseEqTrue]
    | some Value.vNull => simp [jsLooseEqTrue]

/-! ## List lemmas for the identifier theorems -/

theorem takeWhile_append_all {p : Char → Bool} :
    ∀ (l1 l2 : List Char), (∀ c ∈ l1, p c = true) →
      (l1 ++ l2).takeWhile p = l1 ++ l2.takeWhile p
  | [], l2, _ => by simp
  | a :: t, l2, h => by
    have ha := h a (List.mem_cons_self a t)
    have ih := takeWhile_append_all t l2 (fun c hc => h c (List.mem_cons_of_mem a hc))
    simp only [List.cons_append, List.takeWhile_cons, ha, if_true, ih]

theorem dropWhile_append_all {p : Char → Bool} :
    ∀ (l1 l2 : List Char), (∀ c ∈ l1, p c = true) →
      (l1 ++ l2).dropWhile p = l2.dropWhile p
  | [], l2, _ => by simp
  | a :: t, l2, h => by
    have ha := h a (List.mem_cons_self a t)
    have ih := dropWhile_append_all t l2 (fun c hc => h c (List.mem_cons_of_mem a hc))
    simp only [List.cons_append, List.dropWhile_cons, ha, if_true, ih]

theorem takeWhile_eq_self_all {p : Char → Bool} :
    ∀ (l : List Char), (∀ c ∈ l, p c = true) → l.takeWhile p = l
  | [], _ => by simp
  | a :: t, h => by
    have ha := h a (List.mem_cons_self a t)
    have ih := takeWhile_eq_self_all t (fun c hc => h c (List.mem_cons_of_mem a hc))
    simp only [List.takeWhile_cons, ha, if_true, ih]

theorem dropWhile_eq_self_all {p : Char → Bool} (l : List Char)
    (h : ∀ c ∈ l, p c = false) : l.dropWhile p = l := by
  cases l with
  | nil => simp
  | cons a t => simp [List.dropWhile_cons, h a (List.mem_cons_self a t)]

theorem dropWhile_append_cons {p : Char → Bool} :
    ∀ (l1 : List Char) (a : Char) (l2 : List Char), p a = false →
      (l1 ++ a :: l2).dropWhile p = l1.dropWhile p ++ a :: l2
  | [], a, l2, h => by simp [List.dropWhile_cons, h]
  | c :: t, a, l2, h => by
    have ih := dropWhile_append_cons t a l2 h
    by_cases hc : p c = true
    · simp [List.dropWhile_cons, hc, ih]
    · simp only [Bool.not_eq_true] at hc
      simp [List.dropWhile_cons, hc]

theorem map_eq_self_all {f : Char → Char} :
    ∀ (l : List Char), (∀ c ∈ l, f c = c) → l.map f = l
  | [], _ => by simp
  | a :: t, h => by
    have ih := map_eq_self_all t (fun c hc => h c (List.mem_cons_of_mem a hc))
    simp [h a (List.mem_cons_self a t), ih]

theorem str_toList_append (a b : String) : (a ++ b).toList = a.toList ++ b.toList := by
  cases a
  cases b
  rfl

theorem str_ext_toList {a b : String} (h : a.toList = b.toList) : a = b := by
  cases a
  cases b
  exact congrArg String.mk h

/-! ## Character facts -/

theorem orderChar_of_isDigit (c : Char) (h : c.isDigit = true) : orderChar c = true := by
  simp [orderChar, h]

theorem jsWS_eq_false_of_litChar (c : Char) (h : litChar c = true) : jsWS c = false := by
  rcases Bool.eq_false_or_eq_true (jsWS c) with ht | hf
  · exfalso
    unfold jsWS at ht
    simp only [Bool.or_eq_true, beq_iff_eq, or_assoc] at ht
    rcases ht with h1 | h1 | h1 | h1 | h1 | h1 | h1 | h1 | h1 | h1 | h1 | h1 | h1 |
      h1 | h1 | h1 | h1 | h1 | h1 | h1 | h1 | h1 | h1 | h1 | h1 <;>
      (subst h1; exact absurd h (by decide))
  · exact hf

theorem litChar_ne_delims (c : Char) (h : litChar c = true) :
    c ≠ lcurl ∧ c ≠ rcurl ∧ c ≠ '#' ∧ c ≠ '/' := by
  refine ⟨?_, ?_, ?_, ?_⟩ <;> (intro heq; subst heq; exact absurd h (by decide))

/-- Literal field-name characters are in particular plain token characters. -/
theorem litChar_plain (c : Char) (h : litChar c = true) : plainChar c = true := by
  obtain ⟨h1, h2, h3, h4⟩ := litChar_ne_delims c h
  unfold plainChar
  rw [jsWS_eq_false_of_litChar c h]
  simp [h1, h2, h3, h4]

theorem jsWS_eq_false_of_isDigit (c : Char) (h : c.isDigit = true) : jsWS c = false :=
  jsWS_eq_false_of_litChar c (by unfold litChar; rw [h]; simp)

theorem ne_slash_of_isDigit (c : Char) (h : c.isDigit = true) : c ≠ '/' := by
  intro heq
  subst heq
  exact absurd h (by decide)

/-! ## Path-model lemmas -/

/-- A path without separators is its own basename. -/
theorem jsBasenameL_no_slash (xs : List Char) (h : ∀ c ∈ xs, c ≠ '/') :
    jsBasenameL xs = xs := by
  unfold jsBasenameL
  rw [dropWhile_eq_self_all _ (fun c hc => by
    simp [h c (List.mem_reverse.mp hc)])]
  rw [takeWhile_eq_self_all _ (fun c hc => by
    simp [h c (List.mem_reverse.mp hc)])]
  simp

/-- When the extension part contains no dot and the stem is non-empty, the
    last dot is the split point. -/
theorem extSplit_append (X E : List Char) (hX : X ≠ []) (hE : ∀ c ∈ E, c ≠ '.') :
    extSplit (X ++ '.' :: E) = (X, '.' :: E) := by
  have hEr : ∀ c ∈ E.reverse, (decide (c ≠ '.')) = true := by
    intro c hc
    simp [hE c (List.mem_reverse.mp hc)]
  have hrev : (X ++ '.' :: E).reverse = E.reverse ++ '.' :: X.reverse := by simp
  have hdrop : ((X ++ '.' :: E).reverse).dropWhile (· ≠ '.') = '.' :: X.reverse := by
    rw [hrev, dropWhile_append_all _ _ hEr]
    simp [List.dropWhile_cons]
  have htake : ((X ++ '.' :: E).reverse).takeWhile (· ≠ '.') = E.reverse := by
    rw [hrev, takeWhile_append_all _ _ hEr]
    simp [List.takeWhile_cons]
  unfold extSplit
  rw [hdrop, htake]
  have hXr : X.reverse ≠ [] := by simpa using hX
  simp [hXr]

theorem toList_mk (l : List Char) : (String.mk l).toList = l := rfl

theorem trimEndL_append_cons (l1 l2 : List Char) (a : Char) (h : jsWS a = false) :
    trimEndL (l1 ++ a :: l2) = l1 ++ a :: trimEndL l2 := by
  unfold trimEndL
  rw [show (l1 ++ a :: l2).reverse = l2.reverse ++ a :: l1.reverse by simp]
  rw [dropWhile_append_cons _ _ _ h]
  simp

theorem wsDash_eq_self (c : Char) (h : jsWS c = false) : wsDash c = c := by
  simp [wsDash, h]

/-- C6 counterexample: for the whitespace-initial name ` bar` the frozen
    relation fails with `preserveNumbers`: the one-sided trim of ` bar.html`
    eats the leading space, while in `02- bar.html` that space is interior
    and becomes a dash, so the identifiers differ by more than the preserved
    `02-` prefix. -/
theorem claim_C6_counterexample :
    getName ("02" ++ "-" ++ " bar" ++ "." ++ "html") true = "02--bar"
    ∧ getName (" bar" ++ "." ++ "html") true = "bar"
    ∧ getName ("02" ++ "-" ++ " bar" ++ "." ++ "html") true
        ≠ "02" ++ "-" ++ getName (" bar" ++ "." ++ "html") true :=
  ⟨by decide, by decide, by decide⟩

/-- C6 (amended): for a numeric prefix `N` and a name that does not begin
    with a whitespace character, the identifier of `N-name.ext` equals the
    identifier of `name.ext` when numbers are not preserved, and with
    `preserveNumbers` the former is exactly the latter with the `N-` prefix
    kept.  (`N` non-empty numeric; the name non-empty and separator-free; the
    extension free of dots and separators.  For a whitespace-initial name the
    relation fails, per the counterexample.) -/
theorem claim_C6_amended (N name ext : String)
    (hN0 : N.toList ≠ []) (hN : ∀ c ∈ N.toList, c.isDigit = true)
    (hn0 : name.toList ≠ []) (hn1 : ∀ c ∈ name.toList, c ≠ '/')
    (hn2 : ∀ c, name.toList.head? = some c → jsWS c = false)
    (he : ∀ c ∈ ext.toList, c ≠ '.' ∧ c ≠ '/') :
    getName (N ++ "-" ++ name ++ "." ++ ext) false = getName (name ++ "." ++ ext) false
    ∧ getName (N ++ "-" ++ name ++ "." ++ ext) true
        = N ++ "-" ++ getName (name ++ "." ++ ext) true := by
  have hdash : ("-" : String).toList = ['-'] := rfl
  have hdot2 : ("." : String).toList = ['.'] := rfl
  have htl1 : (N ++ "-" ++ name ++ "." ++ ext).toList
      = (N.toList ++ '-' :: name.toList) ++ '.' :: ext.toList := by
    rw [str_toList_append, str_toList_append, str_toList_append, str_toList_append, hdash, hdot2]
    simp
  have htl2 : (name ++ "." ++ ext).toList = name.toList ++ '.' :: ext.toList := by
    rw [str_toList_append, str_toList_append, hdot2]
    simp
  have hns1 : ∀ c ∈ (N ++ "-" ++ name ++ "." ++ ext).toList, c ≠ '/' := by
    rw [htl1]
    intro c hc
    rcases List.mem_append.mp hc with h1 | h2
    · rcases List.mem_append.mp h1 with h3 | h4
      · exact ne_slash_of_isDigit c (hN c h3)
      · rcases List.mem_cons.mp h4 with rfl | h5
        · decide
        · exact hn1 c h5
    · rcases List.mem_cons.mp h2 with rfl | h5
      · decide
      · exact (he c h5).2
  have hns2 : ∀ c ∈ (name ++ "." ++ ext).toList, c ≠ '/' := by
    rw [htl2]
    intro c hc
    rcases List.mem_append.mp hc with h1 | h2
    · exact hn1 c h1
    · rcases List.mem_cons.mp h2 with rfl | h5
      · decide
      · exact (he c h5).2
  have hX1 : (N.toList ++ '-' :: name.toList) ≠ [] := by
    cases N.toList with
    | nil => simp
    | cons a t => simp
  have hsplit1 : extSplit (jsBasenameL (N ++ "-" ++ name ++ "." ++ ext).toList)
      = (N.toList ++ '-' :: name.toList, '.' :: ext.toList) := by
    rw [jsBasenameL_no_slash _ hns1, htl1]
    exact extSplit_append _ _ hX1 (fun c hc => (he c hc).1)
  have hsplit2 : extSplit (jsBasenameL (name ++ "." ++ ext).toList)
      = (name.toList, '.' :: ext.toList) := by
    rw [jsBasenameL_no_slash _ hns2, htl2]
    exact extSplit_append _ _ hn0 (fun c hc => (he c hc).1)
  obtain ⟨h0, t0, hnm⟩ : ∃ h t, name.toList = h :: t := by
    cases hh : name.toList with
    | nil => exact absurd hh hn0
    | cons a b => exact ⟨a, b, rfl⟩
  have hws0 : jsWS h0 = false := hn2 h0 (by rw [hnm]; rfl)
  obtain ⟨d0, dt, hNd⟩ : ∃ d t, N.toList = d :: t := by
    cases hh : N.toList with
    | nil => exact absurd hh hN0
    | cons a b => exact ⟨a, b, rfl⟩
  have hd0 : jsWS d0 = false :=
    jsWS_eq_false_of_isDigit d0 (hN d0 (by rw [hNd]; exact List.mem_cons_self _ _))
  constructor
  · -- preserveNumbers = false
    unfold getName
    rw [hsplit1, hsplit2]
    unfold filterName
    simp only [Bool.false_eq_true, if_false, toList_mk]
    have hall : ∀ c ∈ N.toList ++ ['-'], orderChar c = true := by
      intro c hc
      rcases List.mem_append.mp hc with h1 | h2
      · exact orderChar_of_isDigit c (hN c h1)
      · rcases List.mem_cons.mp h2 with rfl | h3
        · decide
        · simp at h3
    have hso : stripOrder (N.toList ++ '-' :: name.toList) = stripOrder name.toList := by
      unfold stripOrder
      rw [show N.toList ++ '-' :: name.toList = (N.toList ++ ['-']) ++ name.toList by simp]
      rw [dropWhile_append_all _ _ hall]
    rw [hso]
  · -- preserveNumbers = true
    unfold getName
    rw [hsplit1, hsplit2]
    apply str_ext_toList
    have hA : jsTrimL (N.toList ++ '-' :: name.toList)
        = N.toList ++ '-' :: trimEndL name.toList := by
      unfold jsTrimL
      rw [trimEndL_append_cons _ _ _ (by decide)]
      rw [hNd]
      simp only [List.cons_append, List.dropWhile_cons, hd0]
      simp
    have hB : jsTrimL name.toList = h0 :: trimEndL t0 := by
      rw [hnm]
      unfold jsTrimL
      rw [show h0 :: t0 = [] ++ h0 :: t0 by simp, trimEndL_append_cons _ _ _ hws0]
      simp [List.dropWhile_cons, hws0]
    have hC : trimEndL name.toList = h0 :: trimEndL t0 := by
      rw [hnm]
      rw [show h0 :: t0 = [] ++ h0 :: t0 by simp, trimEndL_append_cons _ _ _ hws0]
      simp
    have hmapN : N.toList.map wsDash = N.toList :=
      map_eq_self_all _ (fun c hc => wsDash_eq_self c (jsWS_eq_false_of_isDigit c (hN c hc)))
    rw [str_toList_append, str_toList_append, hdash]
    unfold filterName
    simp only [if_true, toList_mk]
    rw [hA, hB, hC]
    simp [hmapN, wsDash_eq_self _ hws0, wsDash_eq_self ('-' : Char) (by decide)]
    exact hmapN

/-- C6 witness: the identifier relation instantiated at `02-bar.html` and
    `bar.html`. -/
theorem claim_C6_witness :
    getName ("02" ++ "-" ++ "bar" ++ "." ++ "html") false = getName ("bar" ++ "." ++ "html") false
    ∧ getName ("02" ++ "-" ++ "bar" ++ "." ++ "html") true
        = "02" ++ "-" ++ getName ("bar" ++ "." ++ "html") true :=
  claim_C6_amended "02" "bar" "html" (by decide) (by decide) (by decide) (by decide)
    (by
      intro c hc
      have hc' : some 'b' = some c := hc
      have h2 : 'b' = c := by injection hc'
      subst h2
      decide)
    (by decide)

/-- C9: for every item whose bundle flag is true, the bundling pass succeeds
    (no error reaches the caller) and writes the item's rendered HTML output
    first, followed only by the asset copies that actually exist and the
    guarded legacy export — for *every* state of the file system, in
    particular when any or all of the six optional compiled asset files are
    missing. -/
theorem claim_C9_bundler (opts : FabOptions) (render : String → List (String × CtxV) → String)
    (wsExport : String → String → List (String × String)) (fsIn : String → Option String)
    (dirs : List String) (st : MatState) (f : ParsedFile) (key : String) (item : ItemNode)
    (hlook : bundleLookup dirs st.asm f = Except.ok (key, some item))
    (hb : item.bundle = true) :
    bundleFile opts render wsExport fsIn dirs st f
      = Except.ok { st with writes := st.writes ++
          (bundleHtmlPath opts f item,
           render (bundleSource key) (buildContext opts st.asm (itemCtx item) []))
            :: (bundleCopies opts fsIn (bundleBaseName f)
                ++ bundleWs wsExport st.asm item (bundleBaseName f)
                     (render (bundleSource key) (buildContext opts st.asm (itemCtx item) []))) } := by
  have hlook' : bundleLookup dirs st.asm f = pure (key, some item) := hlook
  unfold bundleFile
  rw [hlook', pure_bind]
  simp only [hb]
  rfl

/-- C9 witness: the bundling theorem instantiated at a concrete bundled item
    with the empty file system, where every optional asset read fails: the
    pass still returns successfully with the rendered HTML as its only
    write. -/
theorem claim_C9_witness :
    (bundleLookup [] wState.asm wFile = Except.ok ("primary", some wItem) ∧ wItem.bundle = true)
    ∧ bundleFile defaultOptions constRender noWsExport emptyFS [] wState wFile
        = Except.ok { wState with writes := wState.writes ++
            (bundleHtmlPath defaultOptions wFile wItem,
             constRender (bundleSource "primary") (buildContext defaultOptions wState.asm (itemCtx wItem) []))
              :: (bundleCopies defaultOptions emptyFS (bundleBaseName wFile)
                  ++ bundleWs noWsExport wState.asm wItem (bundleBaseName wFile)
                       (constRender (bundleSource "primary") (buildContext defaultOptions wState.asm (itemCtx wItem) []))) } :=
  ⟨⟨by decide, by decide⟩,
   claim_C9_bundler defaultOptions constRender noWsExport emptyFS [] wState wFile "primary" wItem
     (by decide) (by decide)⟩

/-! ## Split lemmas for the hierarchy classifier -/

theorem splitChars_no_sep {p : Char → Bool} :
    ∀ (l : List Char), (∀ c ∈ l, p c = false) → splitChars p l = [l]
  | [], _ => rfl
  | a :: t, h => by
    have ih := splitChars_no_sep t (fun c hc => h c (List.mem_cons_of_mem a hc))
    simp [splitChars, h a (List.mem_cons_self a t), ih]


theorem contains_eq_decide_mem (l : List String) (a : String) :
    l.contains a = decide (a ∈ l) := by
  by_cases hm : a ∈ l
  · have hc : l.contains a = true := List.elem_iff.mpr hm
    rw [hc]
    simp [hm]
  · have hc : l.contains a = false := by
      rcases Bool.eq_false_or_eq_true (l.contains a) with h | h
      · exact absurd (List.elem_iff.mp h) hm
      · exact h
    rw [hc]
    simp [hm]

/-- The grandparent component of a file one directory below the materials
    root is the root's own directory name. -/
theorem parentComp_one_level (c fn : String)
    (hc0 : c.toList ≠ []) (hc1 : ∀ ch ∈ c.toList, ch ≠ '/' ∧ ch ≠ '\\')
    (hcd : c ≠ ".") (hcdd : c ≠ "..")
    (hf0 : fn.toList ≠ []) (hf1 : ∀ ch ∈ fn.toList, ch ≠ '/') :
    parentComp ("src/materials/" ++ c ++ "/" ++ fn) = some "materials" := by
  have hpre : ("src/materials/" : String).toList
      = 's' :: 'r' :: 'c' :: '/' :: 'm' :: 'a' :: 't' :: 'e' :: 'r' :: 'i' :: 'a' :: 'l' :: 's' :: '/' :: [] := rfl
  have hsl : ("/" : String).toList = ['/'] := rfl
  have htl : ("src/materials/" ++ c ++ "/" ++ fn).toList
      = ("src/materials/".toList ++ c.toList) ++ '/' :: fn.toList := by
    rw [str_toList_append, str_toList_append, str_toList_append, hsl]
    simp
  obtain ⟨e, er, hfr⟩ : ∃ e er, fn.toList.reverse = e :: er := by
    cases hh : fn.toList.reverse with
    | nil => exact absurd (by simpa using hh) hf0
    | cons a b => exact ⟨a, b, rfl⟩
  have he : e ≠ '/' := hf1 e (List.mem_reverse.mp (by rw [hfr]; exact List.mem_cons_self _ _))
  have hallr : ∀ ch ∈ e :: er, (decide (ch ≠ '/')) = true := by
    intro ch hch
    have : ch ∈ fn.toList := List.mem_reverse.mp (by rw [hfr]; exact hch)
    simp [hf1 ch this]
  have hrev : (("src/materials/".toList ++ c.toList) ++ '/' :: fn.toList).reverse
      = (e :: er) ++ '/' :: (c.toList.reverse ++ "src/materials/".toList.reverse) := by
    rw [List.reverse_append, List.reverse_cons, hfr, List.reverse_append]
    simp
  have h1 : List.dropWhile (· = '/')
        ((e :: er) ++ '/' :: (c.toList.reverse ++ "src/materials/".toList.reverse))
      = (e :: er) ++ '/' :: (c.toList.reverse ++ "src/materials/".toList.reverse) := by
    rw [List.cons_append, List.dropWhile_cons]
    simp [he]
  have h2 : List.dropWhile (· ≠ '/')
        ((e :: er) ++ '/' :: (c.toList.reverse ++ "src/materials/".toList.reverse))
      = '/' :: (c.toList.reverse ++ "src/materials/".toList.reverse) := by
    rw [dropWhile_append_all _ _ hallr]
    simp [List.dropWhile_cons]
  have hXne : c.toList.reverse ++ "src/materials/".toList.reverse ≠ [] := by
    rw [hpre]
    simp
  have hd : jsDirnameL (("src/materials/" ++ c ++ "/" ++ fn).toList)
      = "src/materials/".toList ++ c.toList := by
    rw [htl]
    unfold jsDirnameL
    rw [hrev, h1, h2]
    simp [hXne]
  have hds : jsDirname ("src/materials/" ++ c ++ "/" ++ fn)
      = String.mk ("src/materials/".toList ++ c.toList) := by
    unfold jsDirname
    rw [hd]
  have hcne : c ≠ "" := by
    intro h
    apply hc0
    rw [h]
    rfl
  have hchars : splitChars (· = '/') ("src/materials/".toList ++ c.toList)
      = [['s','r','c'], ['m','a','t','e','r','i','a','l','s'], c.toList] := by
    rw [hpre]
    have hct : splitChars (· = '/') c.toList = [c.toList] :=
      splitChars_no_sep c.toList (fun ch hch => by simp [(hc1 ch hch).1])
    simp [splitChars, hct]
    exact hct
  have hsplitStr : splitStr (· = '/') (String.mk ("src/materials/".toList ++ c.toList))
      = ["src", "materials", c] := by
    unfold splitStr
    rw [toList_mk, hchars]
    rfl
  have hcomps : normComps (String.mk ("src/materials/".toList ++ c.toList))
      = ["src", "materials", c] := by
    unfold normComps
    rw [hsplitStr]
    show normAcc ["materials", "src"] [c] = ["src", "materials", c]
    unfold normAcc
    simp [hcne, hcd, hcdd]
    rfl
  obtain ⟨g, gr, hgr⟩ : ∃ g gr, c.toList.reverse = g :: gr := by
    cases hh : c.toList.reverse with
    | nil => exact absurd (by simpa using hh) hc0
    | cons a b => exact ⟨a, b, rfl⟩
  have hg : g ≠ '/' :=
    (hc1 g (List.mem_reverse.mp (by rw [hgr]; exact List.mem_cons_self _ _))).1
  have hclast : c.toList.getLast? = some g := by
    rw [List.getLast?_eq_head?_reverse, hgr]
    rfl
  have hlast : (String.mk ("src/materials/".toList ++ c.toList)).toList.getLast? = some g := by
    rw [toList_mk, List.getLast?_append, hclast]
    rfl
  have htrailsF : ¬ (((String.mk ("src/materials/".toList ++ c.toList)).toList.getLast? = some '/')
      ∧ normComps (String.mk ("src/materials/".toList ++ c.toList)) ≠ []) := by
    intro hpair
    rw [hlast] at hpair
    have : g = '/' := by injection hpair.1
    exact hg this
  have hheadS : (String.mk ("src/materials/".toList ++ c.toList)).toList.head? = some 's' := by
    rw [toList_mk, hpre]
    rfl
  have hcore : normCore (String.mk ("src/materials/".toList ++ c.toList))
      = "src" ++ "/" ++ ("materials" ++ "/" ++ c) := by
    unfold normCore
    rw [hcomps, hheadS]
    simp [joinSep]
  have hcoreNe : ("src" ++ "/" ++ ("materials" ++ "/" ++ c) : String) ≠ "" := by
    intro h
    have h2 := congrArg String.toList h
    rw [str_toList_append, str_toList_append, str_toList_append] at h2
    rw [show ("src" : String).toList = ['s','r','c'] from rfl] at h2
    simp at h2
  have hcore2 : normCore2 (String.mk ("src/materials/".toList ++ c.toList))
      = "src" ++ "/" ++ ("materials" ++ "/" ++ c) := by
    unfold normCore2
    rw [hcore, if_neg hcoreNe]
  have hnorm : jsNormalize (String.mk ("src/materials/".toList ++ c.toList))
      = "src" ++ "/" ++ ("materials" ++ "/" ++ c) := by
    unfold jsNormalize
    rw [if_neg htrailsF, hcore2]
  have htl2 : ("src" ++ "/" ++ ("materials" ++ "/" ++ c)).toList
      = "src/materials/".toList ++ c.toList := by
    rw [str_toList_append, str_toList_append, str_toList_append, str_toList_append, hsl, hpre]
    rw [show ("src" : String).toList = ['s','r','c'] from rfl,
        show ("materials" : String).toList = ['m','a','t','e','r','i','a','l','s'] from rfl]
    simp
  have hsplit2 : splitSeps ("src" ++ "/" ++ ("materials" ++ "/" ++ c)) = ["src", "materials", c] := by
    unfold splitSeps splitStr
    rw [htl2, hpre]
    have hct2 : splitChars (fun ch => ch = '/' || ch = '\\') c.toList = [c.toList] :=
      splitChars_no_sep c.toList (fun ch hch => by simp [(hc1 ch hch).1, (hc1 ch hch).2])
    have hct2d : splitChars (fun ch => ch = '/' || ch = '\\') c.data = [c.data] := hct2
    simp [splitChars, hct2d]
  unfold parentComp normSplit
  rw [hds, hnorm, hsplit2]
  rfl


/-- C3 (amended): a material file is classified as sub-collection iff the
    identifier of its grandparent directory component is among the directory
    identifiers enumerated from the glob (third conjunct); a file one
    directory below the materials root is classified flat *provided* no
    enumerated identifier equals `materials` (first conjunct — a subdirectory
    itself named `materials` defeats the claim's unconditional "never"); and
    `materials/components/buttons/primary.html` is sub-collection iff
    `components` is among the enumerated identifiers (second conjunct). -/
theorem claim_C3_amended (dirPaths dirs : List String)
    (hd : dirsIds dirPaths = some dirs) (hroot : "materials" ∉ dirs)
    (c fn : String)
    (hc0 : c.toList ≠ []) (hc1 : ∀ ch ∈ c.toList, ch ≠ '/' ∧ ch ≠ '\\')
    (hcd : c ≠ ".") (hcdd : c ≠ "..")
    (hf0 : fn.toList ≠ []) (hf1 : ∀ ch ∈ fn.toList, ch ≠ '/') :
    materialIsSub dirs ("src/materials/" ++ c ++ "/" ++ fn) = some false
    ∧ materialIsSub dirs "src/materials/components/buttons/primary.html"
        = some (decide ("components" ∈ dirs))
    ∧ ∀ (f pc : String), parentComp f = some pc →
        (materialIsSub dirs f = some true ↔ filterName pc false ∈ dirs) := by
  refine ⟨?_, ?_, ?_⟩
  · have hp := parentComp_one_level c fn hc0 hc1 hcd hcdd hf0 hf1
    unfold materialIsSub parentIdOf
    rw [hp]
    show some (dirs.contains (filterName "materials" false)) = some false
    have hfm : filterName "materials" false = "materials" := by decide
    rw [hfm, contains_eq_decide_mem]
    simp [hroot]
  · have hpid : parentIdOf "src/materials/components/buttons/primary.html" = some "components" := by
      decide
    unfold materialIsSub
    rw [hpid]
    show some (dirs.contains "components") = _
    rw [contains_eq_decide_mem]
  · intro f pc hpc
    unfold materialIsSub parentIdOf
    rw [hpc]
    show some (dirs.contains (filterName pc false)) = some true ↔ _
    rw [contains_eq_decide_mem]
    simp

/-- C3 witness: the amended classification facts instantiated with the
    single enumerated directory `components`. -/
theorem claim_C3_witness :
    (dirsIds ["src/materials/components/"] = some ["components"]
      ∧ "materials" ∉ ["components"])
    ∧ (materialIsSub ["components"] ("src/materials/" ++ "buttons" ++ "/" ++ "primary.html")
          = some false
       ∧ materialIsSub ["components"] "src/materials/components/buttons/primary.html"
          = some (decide ("components" ∈ ["components"]))
       ∧ ∀ (f pc : String), parentComp f = some pc →
          (materialIsSub ["components"] f = some true ↔ filterName pc false ∈ ["components"])) :=
  ⟨⟨by decide, by decide⟩,
   claim_C3_amended ["src/materials/components/"] ["components"] (by decide) (by decide)
     "buttons" "primary.html" (by decide) (by decide) (by decide) (by decide)
     (by decide) (by decide)⟩

theorem plainChar_spec (c : Char) (h : plainChar c = true) :
    jsWS c = false ∧ c ≠ lcurl ∧ c ≠ rcurl ∧ c ≠ '#' ∧ c ≠ '/' := by
  unfold plainChar at h
  simp only [Bool.and_eq_true, Bool.not_eq_true', beq_eq_false_iff_ne, ne_eq] at h
  exact ⟨h.1.1.1.1, h.1.1.1.2, h.1.1.2, h.1.2, h.2⟩

/-- A two-element whitespace-or-empty pad followed by the closing braces is
    consumed by `wsClose`. -/
theorem wsClose_pad (w2l : List Char)
    (hw : w2l = [] ∨ ∃ a, w2l = [a] ∧ jsWS a = true) :
    wsClose (w2l ++ [rcurl, rcurl]) = some [] := by
  rcases hw with rfl | ⟨a, rfl, ha⟩
  · have : jsWS rcurl = false := by decide
    simp [wsClose, strip2Close, this]
  · simp [wsClose, strip2Close, ha]

/-- `wsClose` fails on a plain head character. -/
theorem wsClose_plain (a : Char) (ha : plainChar a = true) (xs : List Char) :
    wsClose (a :: xs) = none := by
  obtain ⟨hws, _, hrc, _, _⟩ := plainChar_spec a ha
  cases xs with
  | nil => simp [wsClose, strip2Close, hws]
  | cons b t => simp [wsClose, strip2Close, hws, hrc]

/-- One unfolding step of `lazyRun`. -/
theorem lazyRun_cons_eq (c a : Char) (t : List Char) :
    lazyRun c (a :: t)
      = if a = c then
          (match wsClose t with
           | some r => some (1, r)
           | none =>
             match lazyRun c t with
             | some jr => some (jr.1 + 1, jr.2)
             | none => none)
        else none := rfl

/-- `c+?\s?\}\}` on a plain run followed by optional pad and the closing
    braces: succeeds iff the run is non-empty and consists solely of `c`,
    consuming everything. -/
theorem lazyRun_pad (c : Char) (hc : plainChar c = true) (m : List Char) :
    (∀ ch ∈ m, plainChar ch = true) →
    ∀ (w2l : List Char), (w2l = [] ∨ ∃ a, w2l = [a] ∧ jsWS a = true) →
    lazyRun c (m ++ w2l ++ [rcurl, rcurl])
      = if !m.isEmpty && m.all (· = c) then some (m.length, []) else none := by
  induction m with
  | nil =>
    intro hm w2l hw2
    rcases hw2 with rfl | ⟨a, rfl, ha⟩
    · have hne : rcurl ≠ c := fun h => (plainChar_spec c hc).2.2.1 h.symm
      simp [lazyRun, hne]
    · have hne : a ≠ c := by
        intro h
        rw [h, (plainChar_spec c hc).1] at ha
        exact Bool.false_ne_true ha
      simp [lazyRun, hne]
  | cons b m' ih =>
    intro hm w2l hw2
    have hb := hm b (List.mem_cons_self b m')
    by_cases hbc : b = c
    · subst hbc
      cases m' with
      | nil =>
        have hws := wsClose_pad w2l hw2
        simp [lazyRun, hws]
      | cons d m'' =>
        have hd := hm d (List.mem_cons_of_mem b (List.mem_cons_self d m''))
        have hwsc : wsClose (d :: (m'' ++ w2l ++ [rcurl, rcurl])) = none :=
          wsClose_plain d hd _
        have ih2 := ih (fun ch hch => hm ch (List.mem_cons_of_mem b hch)) w2l hw2
        simp only [List.cons_append] at ih2 ⊢
        rw [lazyRun_cons_eq, if_pos rfl, hwsc, ih2]
        by_cases hcond : (!(d :: m'').isEmpty && (d :: m'').all (· = b)) = true
        · rw [if_pos hcond]
          simp only [List.isEmpty_cons, Bool.not_false, Bool.true_and] at hcond
          simp [hcond]
        · rw [if_neg hcond]
          simp only [List.isEmpty_cons, Bool.not_false, Bool.true_and] at hcond
          have hcf : (d :: m'').all (· = b) = false := by
            rcases Bool.eq_false_or_eq_true ((d :: m'').all (· = b)) with h | h
            · exact absurd h hcond
            · exact h
          simp [hcf]
    · simp [lazyRun, hbc]

theorem dropPre_sound : ∀ (p nm m : List Char), dropPre p nm = some m → nm = p ++ m
  | [], nm, m, h => by
    simp [dropPre] at h
    rw [h]
    rfl
  | a :: ps, [], m, h => by
    simp [dropPre] at h
  | a :: ps, x :: xs, m, h => by
    by_cases hx : x = a
    · have h2 : dropPre ps xs = some m := by
        simpa [dropPre, hx] using h
      have := dropPre_sound ps xs m h2
      simp [hx, this]
    · simp [dropPre, hx] at h

theorem dropPre_self : ∀ (p r : List Char), dropPre p (p ++ r) = some r
  | [], r => by simp [dropPre]
  | a :: ps, r => by
    simp [dropPre]
    exact dropPre_self ps r

/-- Appending the pad and closing braces after the name does not change
    whether the plain key prefix matches. -/
theorem dropPre_pad (w2l : List Char) (hw2 : w2l = [] ∨ ∃ a, w2l = [a] ∧ jsWS a = true) :
    ∀ (p nml : List Char), (∀ ch ∈ p, plainChar ch = true) →
    dropPre p (nml ++ w2l ++ [rcurl, rcurl])
      = (dropPre p nml).map (· ++ w2l ++ [rcurl, rcurl])
  | [], nml, hp => by simp [dropPre]
  | a :: ps, [], hp => by
    have ha := hp a (List.mem_cons_self a ps)
    rcases hw2 with rfl | ⟨w, rfl, hwv⟩
    · have : rcurl ≠ a := fun h => (plainChar_spec a ha).2.2.1 h.symm
      simp [dropPre, this]
    · have : w ≠ a := by
        intro h
        rw [h, (plainChar_spec a ha).1] at hwv
        exact Bool.false_ne_true hwv
      simp [dropPre, this]
  | a :: ps, x :: xs, hp => by
    by_cases hx : x = a
    · have hrec := dropPre_pad w2l hw2 ps xs (fun ch hch => hp ch (List.mem_cons_of_mem a hch))
      simp only [List.append_assoc] at hrec
      simp [dropPre, hx, hrec]
    · simp [dropPre, hx]

theorem filter_plain (l : List Char) (h : ∀ ch ∈ l, plainChar ch = true) :
    l.filter (fun ch => !(jsWS ch)) = l := by
  induction l with
  | nil => rfl
  | cons a t ih =>
    have ha := (plainChar_spec a (h a (List.mem_cons_self a t))).1
    have ih2 := ih (fun ch hch => h ch (List.mem_cons_of_mem a hch))
    simp [List.filter_cons, ha, ih2]

/-- The key-then-run body on `name ++ pad ++ \}\}`: succeeds iff the name is
    the key with its last character repeated, consuming everything and
    returning the name itself. -/
theorem coreBody_pad (p : List Char) (c : Char) (nml w2l : List Char)
    (hp : ∀ ch ∈ p, plainChar ch = true) (hc : plainChar c = true)
    (hnm : ∀ ch ∈ nml, plainChar ch = true)
    (hw2 : w2l = [] ∨ ∃ a, w2l = [a] ∧ jsWS a = true) :
    coreBody p c (nml ++ w2l ++ [rcurl, rcurl])
      = if lastRepExt p c nml then some (nml, []) else none := by
  unfold coreBody lastRepExt
  have hdp := dropPre_pad w2l hw2 p nml hp
  simp only [List.append_assoc] at hdp ⊢
  rw [hdp]
  cases hdrop : dropPre p nml with
  | none => simp
  | some m =>
    have hnmeq : nml = p ++ m := dropPre_sound p nml m hdrop
    have hmplain : ∀ ch ∈ m, plainChar ch = true := by
      intro ch hch
      exact hnm ch (by rw [hnmeq]; exact List.mem_append_right p hch)
    have hrun := lazyRun_pad c hc m hmplain w2l hw2
    simp only [List.append_assoc] at hrun
    simp only [Option.map_some']
    rw [hrun]
    by_cases hcond : (!m.isEmpty && m.all (· = c)) = true
    · rw [if_pos hcond]
      simp only [Bool.and_eq_true, Bool.not_eq_true'] at hcond
      have hrep : List.replicate m.length c = m := by
        symm
        apply List.eq_replicate_of_mem
        intro b hb
        simpa using List.all_eq_true.mp hcond.2 b hb
      have hfil : (p ++ m).filter (fun ch => !(jsWS ch)) = p ++ m := by
        apply filter_plain
        intro ch hch
        rcases List.mem_append.mp hch with h | h
        · exact hp ch h
        · exact hmplain ch h
      simp [hcond, hrep, hfil, hnmeq]
    · rw [if_neg hcond]
      simp only [Bool.not_eq_true] at hcond
      simp [hcond]

theorem plainChar_of_ws (a : Char) (h : jsWS a = true) : plainChar a = false := by
  unfold plainChar
  simp [h]

theorem lastRepExt_nil (p : List Char) (c : Char) : lastRepExt p c [] = false := by
  unfold lastRepExt
  cases p with
  | nil => simp [dropPre]
  | cons q ps => simp [dropPre]

/-- The body matcher fails outright on a head character that cannot open the
    key (whitespace, brace, or sigil). -/
theorem coreBody_notPlain_head (p : List Char) (c a : Char) (xs : List Char)
    (hp : ∀ ch ∈ p, plainChar ch = true) (hc : plainChar c = true)
    (ha : plainChar a = false) :
    coreBody p c (a :: xs) = none := by
  unfold coreBody
  cases p with
  | nil =>
    have hac : a ≠ c := by
      intro h
      rw [h, hc] at ha
      exact Bool.true_eq_false.mp ha
    simp [dropPre, lazyRun, hac]
  | cons q ps =>
    have hq := hp q (List.mem_cons_self q ps)
    have haq : a ≠ q := by
      intro h
      rw [h, hq] at ha
      exact Bool.true_eq_false.mp ha
    simp [dropPre, haq]

/-- Group 2 with its optional leading whitespace on a padded token body. -/
theorem matchBody_pad (p : List Char) (c : Char) (nml w1l w2l : List Char)
    (hp : ∀ ch ∈ p, plainChar ch = true) (hc : plainChar c = true)
    (hnm : ∀ ch ∈ nml, plainChar ch = true)
    (hw1 : w1l = [] ∨ ∃ a, w1l = [a] ∧ jsWS a = true)
    (hw2 : w2l = [] ∨ ∃ a, w2l = [a] ∧ jsWS a = true) :
    matchBody p c (w1l ++ nml ++ w2l ++ [rcurl, rcurl])
      = if lastRepExt p c nml then some (nml, []) else none := by
  have hcore := coreBody_pad p c nml w2l hp hc hnm hw2
  rcases hw1 with rfl | ⟨a, rfl, ha⟩
  · simp only [List.nil_append]
    cases hnml : nml with
    | nil =>
      rw [lastRepExt_nil]
      simp only [Bool.false_eq_true, if_false, List.nil_append]
      rcases hw2 with rfl | ⟨w, rfl, hw⟩
      · simp only [List.nil_append]
        unfold matchBody
        have : jsWS rcurl = false := by decide
        simp only [this, Bool.false_eq_true, if_false]
        exact coreBody_notPlain_head p c rcurl [rcurl] hp hc (by decide)
      · simp only [List.cons_append, List.nil_append]
        unfold matchBody
        simp only [hw, if_true]
        rw [coreBody_notPlain_head p c rcurl [rcurl] hp hc (by decide)]
        exact coreBody_notPlain_head p c w [rcurl, rcurl] hp hc (plainChar_of_ws w hw)
    | cons b ns =>
      have hb := hnm b (by rw [hnml]; exact List.mem_cons_self b ns)
      rw [← hnml]
      have hshape : nml ++ w2l ++ [rcurl, rcurl] = b :: (ns ++ w2l ++ [rcurl, rcurl]) := by
        rw [hnml]
        simp
      rw [hshape]
      unfold matchBody
      simp only [(plainChar_spec b hb).1, Bool.false_eq_true, if_false]
      rw [← hshape]
      exact hcore
  · have hshape : [a] ++ nml ++ w2l ++ [rcurl, rcurl] = a :: (nml ++ w2l ++ [rcurl, rcurl]) := by
      simp
    rw [hshape]
    unfold matchBody
    simp only [ha, if_true]
    rw [hcore]
    by_cases hext : lastRepExt p c nml = true
    · simp [hext]
    · simp only [Bool.not_eq_true] at hext
      simp only [hext, Bool.false_eq_true, if_false]
      exact coreBody_notPlain_head p c a _ hp hc (plainChar_of_ws a ha)

theorem ws_ne_lcurl (a : Char) (h : jsWS a = true) : a ≠ lcurl := by
  intro hc
  rw [hc] at h
  exact absurd h (by decide)

theorem matchBody_head_notPlain (p : List Char) (c s : Char) (xs : List Char)
    (hp : ∀ ch ∈ p, plainChar ch = true) (hc : plainChar c = true)
    (hws : jsWS s = false) (hpl : plainChar s = false) :
    matchBody p c (s :: xs) = none := by
  unfold matchBody
  simp only [hws, Bool.false_eq_true, if_false]
  exact coreBody_notPlain_head p c s xs hp hc hpl

theorem matchTok_nosigil (p : List Char) (c : Char) (s : Char) (rest2 : List Char)
    (hns : ¬(s = '#' ∨ s = '/')) :
    matchTok p c (lcurl :: lcurl :: s :: rest2)
      = match matchBody p c (s :: rest2) with
        | some nr => some ([], nr.1, nr.2)
        | none => none := by
  simp only [matchTok, eq_self_iff_true, and_self, if_true, hns, if_false]

theorem matchTok_sigil (p : List Char) (c : Char) (s : Char) (rest2 : List Char)
    (hs : s = '#' ∨ s = '/') :
    matchTok p c (lcurl :: lcurl :: s :: rest2)
      = match matchBody p c rest2 with
        | some nr => some ([s], nr.1, nr.2)
        | none =>
          match matchBody p c (s :: rest2) with
          | some nr => some ([], nr.1, nr.2)
          | none => none := by
  simp only [matchTok, eq_self_iff_true, and_self, if_true]
  rw [if_pos hs]

/-- On a whole padded token the matcher yields the sigil, the unpadded name
    and an empty remainder exactly when the name is the prefix plus a
    nonempty run of the final character. -/
theorem matchTok_token (p : List Char) (c : Char) (sgl w1l nml w2l : List Char)
    (hp : ∀ ch ∈ p, plainChar ch = true) (hc : plainChar c = true)
    (hnm : ∀ ch ∈ nml, plainChar ch = true)
    (hsg : sgl = [] ∨ sgl = ['#'] ∨ sgl = ['/'])
    (hw1 : w1l = [] ∨ ∃ a, w1l = [a] ∧ jsWS a = true)
    (hw2 : w2l = [] ∨ ∃ a, w2l = [a] ∧ jsWS a = true) :
    matchTok p c (lcurl :: lcurl :: (sgl ++ w1l ++ nml ++ w2l ++ [rcurl, rcurl]))
      = if lastRepExt p c nml then some (sgl, nml, []) else none := by
  have hmb := matchBody_pad p c nml w1l w2l hp hc hnm hw1 hw2
  rcases hsg with rfl | rfl | rfl
  · rcases hw1 with rfl | ⟨a, rfl, ha⟩
    · simp only [List.nil_append] at hmb ⊢
      cases nml with
      | cons b ns =>
        have hb := hnm b (List.mem_cons_self b ns)
        obtain ⟨_, _, _, hbh, hbs⟩ := plainChar_spec b hb
        simp only [List.cons_append] at hmb ⊢
        rw [matchTok_nosigil p c b _ (by rintro (h | h); exact hbh h; exact hbs h), hmb]
        by_cases hext : lastRepExt p c (b :: ns) = true
        · simp [hext]
        · simp only [Bool.not_eq_true] at hext
          simp [hext]
      | nil =>
        simp only [List.nil_append, lastRepExt_nil, Bool.false_eq_true, if_false] at hmb ⊢
        rcases hw2 with rfl | ⟨w, rfl, hw⟩
        · simp only [List.nil_append] at hmb ⊢
          rw [matchTok_nosigil p c rcurl [rcurl] (by decide), hmb]
        · simp only [List.cons_append, List.nil_append] at hmb ⊢
          rw [matchTok_nosigil p c w [rcurl, rcurl]
            (by rintro (h | h) <;> (rw [h] at hw; exact absurd hw (by decide))), hmb]
    · simp only [List.cons_append, List.nil_append] at hmb ⊢
      rw [matchTok_nosigil p c a _
        (by rintro (h | h) <;> (rw [h] at ha; exact absurd ha (by decide))), hmb]
      by_cases hext : lastRepExt p c nml = true
      · simp [hext]
      · simp only [Bool.not_eq_true] at hext
        simp [hext]
  · simp only [List.cons_append, List.nil_append]
    rw [matchTok_sigil p c '#' _ (Or.inl rfl), hmb]
    by_cases hext : lastRepExt p c nml = true
    · simp [hext]
    · simp only [Bool.not_eq_true] at hext
      simp only [hext, Bool.false_eq_true, if_false]
      rw [matchBody_head_notPlain p c '#' _ hp hc (by decide) (by decide)]
  · simp only [List.cons_append, List.nil_append]
    rw [matchTok_sigil p c '/' _ (Or.inr rfl), hmb]
    by_cases hext : lastRepExt p c nml = true
    · simp [hext]
    · simp only [Bool.not_eq_true] at hext
      simp only [hext, Bool.false_eq_true, if_false]
      rw [matchBody_head_notPlain p c '/' _ hp hc (by decide) (by decide)]

theorem matchTok_not_lcurl (p : List Char) (c x : Char) (t : List Char)
    (hx : x ≠ lcurl) : matchTok p c (x :: t) = none := by
  cases t with
  | nil => rfl
  | cons y t2 =>
    simp only [matchTok]
    rw [if_neg (fun hcon => hx hcon.1)]

theorem matchTok_tail_no_lcurl (p : List Char) (c x : Char) (t : List Char)
    (ht : ∀ ch ∈ t, ch ≠ lcurl) : matchTok p c (x :: t) = none := by
  cases t with
  | nil => rfl
  | cons y t2 =>
    have hy := ht y (List.mem_cons_self y t2)
    simp only [matchTok]
    rw [if_neg (fun hcon => hy hcon.2)]

theorem nsScan_nil (p : List Char) (c : Char) (rep : List Char) (fuel : Nat) :
    nsScan p c rep fuel [] = [] := by
  cases fuel <;> rfl

/-- Content with no opening brace is passed through unchanged. -/
theorem nsScan_no_lcurl (p : List Char) (c : Char) (rep : List Char) :
    ∀ (xs : List Char), (∀ ch ∈ xs, ch ≠ lcurl) →
      nsScan p c rep xs.length xs = xs
  | [], _ => rfl
  | x :: t, h => by
    have hx := h x (List.mem_cons_self x t)
    have ih := nsScan_no_lcurl p c rep t (fun ch hch => h ch (List.mem_cons_of_mem x hch))
    simp only [List.length_cons, nsScan, matchTok_not_lcurl p c x t hx, ih]

/-- Scanning past a brace-free prefix just emits it. -/
theorem nsScan_append_safe (p : List Char) (c : Char) (rep : List Char) :
    ∀ (pre tail : List Char), (∀ ch ∈ pre, ch ≠ lcurl) →
      nsScan p c rep (pre ++ tail).length (pre ++ tail)
        = pre ++ nsScan p c rep tail.length tail
  | [], tail, _ => rfl
  | x :: pr, tail, h => by
    have hx := h x (List.mem_cons_self x pr)
    have ih := nsScan_append_safe p c rep pr tail
      (fun ch hch => h ch (List.mem_cons_of_mem x hch))
    simp only [List.cons_append, List.length_cons, nsScan, List.append_eq,
      matchTok_not_lcurl p c x (pr ++ tail) hx, ih]

theorem token_no_lcurl (sgl w1l nml w2l : List Char)
    (hnm : ∀ ch ∈ nml, plainChar ch = true)
    (hsg : sgl = [] ∨ sgl = ['#'] ∨ sgl = ['/'])
    (hw1 : w1l = [] ∨ ∃ a, w1l = [a] ∧ jsWS a = true)
    (hw2 : w2l = [] ∨ ∃ a, w2l = [a] ∧ jsWS a = true) :
    ∀ ch ∈ sgl ++ w1l ++ nml ++ w2l ++ [rcurl, rcurl], ch ≠ lcurl := by
  intro ch hch
  simp only [List.mem_append, List.mem_cons, List.mem_singleton] at hch
  rcases hch with (((h | h) | h) | h) | rfl | rfl | h
  · rcases hsg with rfl | rfl | rfl
    · exact absurd h (List.not_mem_nil ch)
    · rw [List.mem_singleton] at h
      subst h
      decide
    · rw [List.mem_singleton] at h
      subst h
      decide
  · rcases hw1 with rfl | ⟨a, rfl, ha⟩
    · exact absurd h (List.not_mem_nil ch)
    · rw [List.mem_singleton] at h
      subst h
      exact ws_ne_lcurl _ ha
  · exact (plainChar_spec ch (hnm ch h)).2.1
  · rcases hw2 with rfl | ⟨a, rfl, ha⟩
    · exact absurd h (List.not_mem_nil ch)
    · rw [List.mem_singleton] at h
      subst h
      exact ws_ne_lcurl _ ha
  · decide
  · decide
  · exact absurd h (List.not_mem_nil ch)

/-- One whole token at the head of the content: rewritten exactly when the
    name is the field prefix plus a nonempty run of the final character. -/
theorem nsScan_token (p : List Char) (c : Char) (rep sgl w1l nml w2l : List Char)
    (hp : ∀ ch ∈ p, plainChar ch = true) (hc : plainChar c = true)
    (hnm : ∀ ch ∈ nml, plainChar ch = true)
    (hsg : sgl = [] ∨ sgl = ['#'] ∨ sgl = ['/'])
    (hw1 : w1l = [] ∨ ∃ a, w1l = [a] ∧ jsWS a = true)
    (hw2 : w2l = [] ∨ ∃ a, w2l = [a] ∧ jsWS a = true) :
    nsScan p c rep (lcurl :: lcurl :: (sgl ++ w1l ++ nml ++ w2l ++ [rcurl, rcurl])).length
      (lcurl :: lcurl :: (sgl ++ w1l ++ nml ++ w2l ++ [rcurl, rcurl]))
      = if lastRepExt p c nml
        then lcurl :: lcurl :: (sgl ++ rep ++ '.' :: nml ++ [rcurl, rcurl])
        else lcurl :: lcurl :: (sgl ++ w1l ++ nml ++ w2l ++ [rcurl, rcurl]) := by
  have hTno := token_no_lcurl sgl w1l nml w2l hnm hsg hw1 hw2
  have htok := matchTok_token p c sgl w1l nml w2l hp hc hnm hsg hw1 hw2
  by_cases hext : lastRepExt p c nml = true
  · rw [if_pos hext] at htok ⊢
    simp only [List.length_cons, nsScan, htok, nsScan_nil]
  · rw [if_neg hext] at htok ⊢
    simp only [List.length_cons, nsScan, htok]
    simp only [nsScan, matchTok_tail_no_lcurl p c lcurl _ hTno]
    rw [nsScan_no_lcurl p c rep _ hTno]

/-- The matcher's acceptance test in closed form: the token name is the field
    name's prefix followed by a nonempty run of its final character. -/
theorem lastRepExt_iff (p : List Char) (c : Char) (nml : List Char) :
    lastRepExt p c nml = true ↔ ∃ n, 0 < n ∧ nml = p ++ List.replicate n c := by
  unfold lastRepExt
  cases hdp : dropPre p nml with
  | none =>
    simp only [Bool.false_eq_true, false_iff]
    rintro ⟨n, hn, rfl⟩
    rw [dropPre_self p (List.replicate n c)] at hdp
    exact Option.noConfusion hdp
  | some m =>
    simp only [Bool.and_eq_true, Bool.not_eq_true', List.all_eq_true, decide_eq_true_eq]
    constructor
    · rintro ⟨hne, hall⟩
      refine ⟨m.length, ?_, ?_⟩
      · cases m with
        | nil => exact absurd hne (by decide)
        | cons b t => simp
      · have hm : m = List.replicate m.length c := List.eq_replicate_of_mem hall
        rw [dropPre_sound p nml m hdp, ← hm]
    · rintro ⟨n, hn, rfl⟩
      rw [dropPre_self] at hdp
      injection hdp with hm
      subst hm
      constructor
      · cases n with
        | zero => exact absurd hn (lt_irrefl 0)
        | succ k => rfl
      · intro b hb
        exact List.eq_of_mem_replicate hb

/-- C2 (amended): for a field name made of literal characters (ASCII
    alphanumerics, dash, underscore -- the source splices the name unescaped
    into `new RegExp`, so only such names compile to the literal pattern),
    the Field Namespacer rewrites a reference token -- optionally carrying a
    leading `#` or `/` block sigil and at most one whitespace character of
    padding on each side of the name -- exactly when the token's name is the
    field name with its final character repeated one or more times (the
    source appends a lazy `+` to the last character of the field name); the
    rewrite keeps the sigil, drops the padding, and prefixes the dash-joined
    id; content with no opening brace is passed through unchanged. -/
theorem claim_C2_amended
    (p : List Char) (c : Char) (sgl w1l nml w2l pre : List Char) (id : String)
    (hpl : ∀ ch ∈ p, litChar ch = true) (hcl : litChar c = true)
    (hnml : ∀ ch ∈ nml, litChar ch = true)
    (hsg : sgl = [] ∨ sgl = ['#'] ∨ sgl = ['/'])
    (hw1 : w1l = [] ∨ ∃ a, w1l = [a] ∧ jsWS a = true)
    (hw2 : w2l = [] ∨ ∃ a, w2l = [a] ∧ jsWS a = true)
    (hpre : ∀ ch ∈ pre, ch ≠ lcurl) :
    (namespaceField id (String.mk (p ++ [c]))
        (String.mk (pre ++ lcurl :: lcurl :: (sgl ++ w1l ++ nml ++ w2l ++ [rcurl, rcurl])))
      = if lastRepExt p c nml
        then String.mk (pre ++ lcurl :: lcurl ::
          (sgl ++ (replaceDots id).toList ++ '.' :: nml ++ [rcurl, rcurl]))
        else String.mk
          (pre ++ lcurl :: lcurl :: (sgl ++ w1l ++ nml ++ w2l ++ [rcurl, rcurl])))
    ∧ (lastRepExt p c nml = true ↔ ∃ n, 0 < n ∧ nml = p ++ List.replicate n c)
    ∧ (∀ s : List Char, (∀ ch ∈ s, ch ≠ lcurl) →
        namespaceField id (String.mk (p ++ [c])) (String.mk s) = String.mk s) := by
  have hp : ∀ ch ∈ p, plainChar ch = true := fun ch hch => litChar_plain ch (hpl ch hch)
  have hc : plainChar c = true := litChar_plain c hcl
  have hnm : ∀ ch ∈ nml, plainChar ch = true := fun ch hch => litChar_plain ch (hnml ch hch)
  have hlast : (p ++ [c]).getLast? = some c := by
    rw [List.getLast?_append]
    rfl
  have hdrop : (p ++ [c]).dropLast = p := by
    simp
  refine ⟨?_, lastRepExt_iff p c nml, ?_⟩
  · simp only [namespaceField, toList_mk, hlast]
    rw [hdrop]
    rw [nsScan_append_safe p c (replaceDots id).toList pre _ hpre]
    rw [nsScan_token p c (replaceDots id).toList sgl w1l nml w2l hp hc hnm hsg hw1 hw2]
    by_cases hext : lastRepExt p c nml = true
    · rw [if_pos hext, if_pos hext]
    · rw [if_neg hext, if_neg hext]
  · intro s hs
    simp only [namespaceField, toList_mk, hlast]
    rw [hdrop, nsScan_no_lcurl p c (replaceDots id).toList s hs]

theorem claim_C2_witness :
    namespaceField "buttons.primary" "title"
        (String.mk ['A', ':', ' ', lcurl, lcurl, 't', 'i', 't', 'l', 'e', rcurl, rcurl])
      = String.mk (['A', ':', ' ', lcurl, lcurl] ++ "buttons-primary".toList
          ++ ['.', 't', 'i', 't', 'l', 'e', rcurl, rcurl]) := by
  have h := (claim_C2_amended ['t', 'i', 't', 'l'] 'e' [] [] ['t', 'i', 't', 'l', 'e'] []
    ['A', ':', ' '] "buttons.primary" (by decide) (by decide) (by decide) (Or.inl rfl)
    (Or.inl rfl) (Or.inl rfl) (by decide)).1
  rw [if_pos (by decide)] at h
  exact h
